import Mathlib

/-!
Verification development for the sisl/sids density-matrix code.

The central object is `DensityMatrix.density` (src/sisl/physics/densitymatrix.py),
the sparse-orbital-to-real-space density projector.  We give a shallow embedding
of that routine and of the data model it consumes.  Numeric values are modelled
by `ℚ` (the routine is pure rational arithmetic except for the square roots
inside the spherical-coordinate transform; every comparison the code makes of a
radius `r` against a cutoff `R ≥ 0` is rendered by the equivalent comparison of
`r^2` against `R^2`, so no square root is needed, and an orbital's
`psi_spher(r, theta, cos_phi)` evaluator is rendered as a function of the
Cartesian displacement that determines those spherical arguments).  numpy
arrays mutated in place become explicit function updates; the in-place mutation
of the grid is rendered by state passing: the embedded `density` returns the
new grid together with the final floating-point-error configuration, the
emitted warnings and the raised exception (if any).  Loops accumulating into
`ℚ` are rendered as finite sums (addition is commutative, so the value is the
iteration-order-independent sum the loop computes).

Parts of the repository that the sampled sources only declare, test or call
(`SuperCell.set_nsc`, `Geometry.within_inf`, `Grid.index`, the orbital
evaluator, `SparseOrbitalBZSpin.Pk`) are modelled from the spec; each such
definition carries a doc comment starting with `Modelled from the spec:`.
-/

namespace Sisl

/-- Real 3-vector (components are rationals, see the file comment). -/
structure V3 where
  x : ℚ
  y : ℚ
  z : ℚ
  deriving DecidableEq, Repr

/-- Integer 3-vector: a periodic-image offset or a grid index triple. -/
structure Z3 where
  x : ℤ
  y : ℤ
  z : ℤ
  deriving DecidableEq, Repr

/-- 3×3 matrix given by its three rows (the layout of `SuperCell.cell`:
lattice vectors as rows). -/
structure M3 where
  r1 : V3
  r2 : V3
  r3 : V3
  deriving DecidableEq, Repr

instance : Inhabited V3 := ⟨⟨0, 0, 0⟩⟩

instance : Inhabited Z3 := ⟨⟨0, 0, 0⟩⟩

def vadd (a b : V3) : V3 := ⟨a.x + b.x, a.y + b.y, a.z + b.z⟩

def vsub (a b : V3) : V3 := ⟨a.x - b.x, a.y - b.y, a.z - b.z⟩

def smul (c : ℚ) (a : V3) : V3 := ⟨c * a.x, c * a.y, c * a.z⟩

/-- Squared Euclidean length; the code's `r ** 2`. -/
def sq3 (a : V3) : ℚ := a.x ^ 2 + a.y ^ 2 + a.z ^ 2

/-- Row-vector times matrix-of-rows: `v · M = vx·row₁ + vy·row₂ + vz·row₃`;
numpy's `dot(v, M)` for a cell given by rows. -/
def vmul (v : V3) (m : M3) : V3 :=
  vadd (smul v.x m.r1) (vadd (smul v.y m.r2) (smul v.z m.r3))

/-- Matrix product in the same rows convention. -/
def mulMM (a b : M3) : M3 := ⟨vmul a.r1 b, vmul a.r2 b, vmul a.r3 b⟩

def idM3 : M3 := ⟨⟨1, 0, 0⟩, ⟨0, 1, 0⟩, ⟨0, 0, 1⟩⟩

def ofZ3 (n : Z3) : V3 := ⟨(n.x : ℚ), (n.y : ℚ), (n.z : ℚ)⟩

/-- Integer image offset applied through the cell:
the code's `(cell * isc.reshape(3, 1)).sum(0)`. -/
def iscShift (n : Z3) (m : M3) : V3 := vmul (ofZ3 n) m

def det3 (m : M3) : ℚ :=
  m.r1.x * (m.r2.y * m.r3.z - m.r2.z * m.r3.y)
    - m.r1.y * (m.r2.x * m.r3.z - m.r2.z * m.r3.x)
    + m.r1.z * (m.r2.x * m.r3.y - m.r2.y * m.r3.x)

/-- Adjugate-over-determinant inverse of a 3×3 matrix (total: returns junk on a
singular matrix, where `ℚ` division by zero yields 0; every use below either
filters the candidates it produces afterwards or carries an explicit
invertibility hypothesis). -/
def inv3 (m : M3) : M3 :=
  let a := m.r1
  let b := m.r2
  let c := m.r3
  let d := det3 m
  ⟨⟨(b.y * c.z - b.z * c.y) / d, (a.z * c.y - a.y * c.z) / d, (a.y * b.z - a.z * b.y) / d⟩,
   ⟨(b.z * c.x - b.x * c.z) / d, (a.x * c.z - a.z * c.x) / d, (a.z * b.x - a.x * b.z) / d⟩,
   ⟨(b.x * c.y - b.y * c.x) / d, (a.y * c.x - a.x * c.y) / d, (a.x * b.y - a.y * b.x) / d⟩⟩

/-! ### SuperCell -/

/-- Lattice/cell data (`sisl.supercell.SuperCell` / `sids.SuperCell`):
3×3 `cell` with the lattice vectors as rows, periodic repetition counts `nsc`,
the enumerated periodic-image offsets `sc_off`, and the translation `origo`. -/
structure SuperCell where
  cell : M3
  nsc : Z3
  sc_off : List Z3
  origo : V3

/-- Modelled from the spec: the normalization `set_nsc` applies to each
requested component: the smallest odd integer ≥ the request, sending 0 or
negative requests to 1 (spec §4.1; the implementation is not among the sampled
sources, only its test `src/sids/tests/test_supercell.py` is). -/
def normNsc (v : ℤ) : ℤ :=
  if v ≤ 0 then 1 else if v % 2 = 1 then v else v + 1

/-- The list of integers `lo, lo+1, …, hi` (empty when `hi < lo`). -/
def rangeZ (lo hi : ℤ) : List ℤ :=
  (List.range (hi + 1 - lo).toNat).map (fun (t : ℕ) => lo + (t : ℤ))

/-- Modelled from the spec: the periodic-image list regenerated by `set_nsc`:
all integer triplets `(i,j,k)` with `i ∈ [-(nx/2), nx/2]` etc., in a fixed
deterministic (lexicographic) order (spec §4.1). -/
def scOffList (n : Z3) : List Z3 :=
  (rangeZ (-(n.x / 2)) (n.x / 2)).flatMap (fun i =>
    (rangeZ (-(n.y / 2)) (n.y / 2)).flatMap (fun j =>
      (rangeZ (-(n.z / 2)) (n.z / 2)).map (fun k => ⟨i, j, k⟩)))

/-- Modelled from the spec: `SuperCell.set_nsc` (spec §4.1): normalize the
requested repetition counts and regenerate `sc_off`. -/
def set_nsc (sc : SuperCell) (n : Z3) : SuperCell :=
  let m : Z3 := ⟨normNsc n.x, normNsc n.y, normNsc n.z⟩
  { sc with nsc := m, sc_off := scOffList m }

/-! ### Orbitals, atoms, geometry -/

/-- An atomic orbital: radial cutoff `R` and the wavefunction evaluated on the
Cartesian displacement from the atom center (the code evaluates `psi_spher` on
the spherical coordinates of that displacement; the displacement determines
them, so this is the same data). -/
structure Orbital where
  R : ℚ
  psi : V3 → ℚ

instance : Inhabited Orbital := ⟨⟨0, fun _ => 0⟩⟩

/-- An atom: its orbital basis. -/
structure Atom where
  orbitals : List Orbital

instance : Inhabited Atom := ⟨⟨[]⟩⟩

/-- Number of orbitals on the atom (the code's `atom.no`). -/
def Atom.no (a : Atom) : ℕ := a.orbitals.length

def Atom.orbAt (a : Atom) (j : ℕ) : Orbital := a.orbitals.getD j default

/-- Maximal orbital cutoff on the atom (`atom.maxR()`); 0 for an atom without
orbitals — the projector skips such atoms with a warning. -/
def Atom.maxR (a : Atom) : ℚ := a.orbitals.foldr (fun o m => max o.R m) 0

/-- Geometry: the atoms with their Cartesian coordinates, owning a `SuperCell`. -/
structure Geometry where
  atoms : List (Atom × V3)
  sc : SuperCell

def Geometry.na (g : Geometry) : ℕ := g.atoms.length

def Geometry.atomAt (g : Geometry) (ia : ℕ) : Atom := (g.atoms.getD ia default).1

def Geometry.xyzAt (g : Geometry) (ia : ℕ) : V3 := (g.atoms.getD ia ⟨default, ⟨0, 0, 0⟩⟩).2

/-- Total number of orbitals in the primary cell (`geometry.no`). -/
def Geometry.no (g : Geometry) : ℕ := (g.atoms.map (fun p => p.1.orbitals.length)).sum

/-- First orbital index of atom `ia` (`geometry.a2o`). -/
def Geometry.a2o (g : Geometry) (ia : ℕ) : ℕ :=
  ((g.atoms.take ia).map (fun p => p.1.orbitals.length)).sum

/-- Number of supercells (`geometry.n_s`). -/
def Geometry.n_s (g : Geometry) : ℕ := g.sc.sc_off.length

/-- Index of the zero-offset periodic image (`geometry.sc_index([0,0,0])`). -/
def Geometry.primary (g : Geometry) : ℕ := g.sc.sc_off.indexOf ⟨0, 0, 0⟩

def Geometry.scOffAt (g : Geometry) (s : ℕ) : Z3 := g.sc.sc_off.getD s ⟨0, 0, 0⟩

/-- First orbital index of a supercell atom index (`a2o` on a supercell atom). -/
def Geometry.a2oSC (g : Geometry) (ja : ℕ) : ℕ :=
  (ja / g.na) * g.no + g.a2o (ja % g.na)

/-- Cartesian coordinate of a supercell atom (`geometry.axyz`). -/
def Geometry.axyz (g : Geometry) (ja : ℕ) : V3 :=
  vadd (g.xyzAt (ja % g.na)) (iscShift (g.scOffAt (ja / g.na)) g.sc.cell)

/-- Maximal orbital cutoff over the whole geometry (`geometry.maxR()`). -/
def Geometry.maxR (g : Geometry) : ℚ := (g.atoms.map (fun p => Atom.maxR p.1)).foldr max 0

/-- Fractional coordinates of atom `ia` (`geometry.fxyz`): the Cartesian
coordinate expressed in the cell-vector basis, `xyz = fxyz · cell`. -/
def Geometry.fxyz (g : Geometry) (ia : ℕ) : V3 := vmul (g.xyzAt ia) (inv3 g.sc.cell)

/-- All fractional-coordinate components, flattened (the array whose `min` and
`max` the coordinate check inspects). -/
def Geometry.fxyzAll (g : Geometry) : List ℚ :=
  (List.range g.na).flatMap (fun ia => [(g.fxyz ia).x, (g.fxyz ia).y, (g.fxyz ia).z])

/-! ### Grid -/

/-- A real-space grid: 3D array of values, its own cell and derived voxel cell
`dcell`, and the origin `origo`.  The value array is a total function on index
triples; the projector only ever touches indices inside `[0, shape)`. -/
structure Grid where
  shape : Z3
  cell : M3
  dcell : M3
  origo : V3
  val : Z3 → ℚ

/-- Position of a grid index relative to the grid origin: `dot(idx, dcell)`. -/
def posOf (gr : Grid) (q : Z3) : V3 := vmul (ofZ3 q) gr.dcell

/-! ### Interval-arithmetic candidate enumeration

Both spec-modelled geometric primitives (`Geometry.within_inf` and
`Grid.index` on a sphere) enumerate candidate integer triples whose image
under an affine map can land in an axis-aligned box, then filter exactly.
The candidate bounds come from interval arithmetic: if `lo ≤ p ≤ hi`
componentwise, then each component of `p · N` lies between `boxMulLo` and
`boxMulHi`. -/

def ivLo (lo hi a : ℚ) : ℚ := min (lo * a) (hi * a)

def ivHi (lo hi a : ℚ) : ℚ := max (lo * a) (hi * a)

def boxMulLo (lo hi : V3) (n : M3) : V3 :=
  ⟨ivLo lo.x hi.x n.r1.x + ivLo lo.y hi.y n.r2.x + ivLo lo.z hi.z n.r3.x,
   ivLo lo.x hi.x n.r1.y + ivLo lo.y hi.y n.r2.y + ivLo lo.z hi.z n.r3.y,
   ivLo lo.x hi.x n.r1.z + ivLo lo.y hi.y n.r2.z + ivLo lo.z hi.z n.r3.z⟩

def boxMulHi (lo hi : V3) (n : M3) : V3 :=
  ⟨ivHi lo.x hi.x n.r1.x + ivHi lo.y hi.y n.r2.x + ivHi lo.z hi.z n.r3.x,
   ivHi lo.x hi.x n.r1.y + ivHi lo.y hi.y n.r2.y + ivHi lo.z hi.z n.r3.y,
   ivHi lo.x hi.x n.r1.z + ivHi lo.y hi.y n.r2.z + ivHi lo.z hi.z n.r3.z⟩

/-- All integer triples whose real image under `· n` can lie in the box
`[lo, hi]`: the floor/ceil hull of the interval bounds. -/
def candIdx (lo hi : V3) (n : M3) : List Z3 :=
  let cl := boxMulLo lo hi n
  let ch := boxMulHi lo hi n
  (rangeZ ⌊cl.x⌋ ⌈ch.x⌉).flatMap (fun i =>
    (rangeZ ⌊cl.y⌋ ⌈ch.y⌉).flatMap (fun j =>
      (rangeZ ⌊cl.z⌋ ⌈ch.z⌉).map (fun k => ⟨i, j, k⟩)))

/-- Modelled from the spec: `Grid.index` applied to a sphere (spec §4.3 step 5:
"the grid points inside the bounding sphere of radius = that atom's maximal
orbital cutoff, centered at the atom's (grid-relative) position").  Indices may
fall outside the array bounds; the caller clamps them. -/
def gridIndexSphere (gr : Grid) (c : V3) (R : ℚ) : List Z3 :=
  (candIdx (vsub c ⟨R, R, R⟩) (vadd c ⟨R, R, R⟩) (inv3 gr.dcell)).filter
    (fun q => decide (sq3 (vsub (posOf gr q) c) ≤ R ^ 2))

/-- Componentwise clamp of one index into `[0, s)` (lines 403–408 of
`densitymatrix.py`). -/
def clampI (v s : ℤ) : ℤ := if v < 0 then 0 else if s ≤ v then s - 1 else v

def clampIdx (sh : Z3) (q : Z3) : Z3 := ⟨clampI q.x sh.x, clampI q.y sh.y, clampI q.z sh.z⟩

/-- Modelled from the spec: `Geometry.within_inf` over an axis-aligned bounding
box (spec §4.2): every atom, including periodic replicas, whose Cartesian
position lies inside the box, tagged with its image-translation triple. -/
def within_inf (g : Geometry) (lo hi : V3) : List (ℕ × Z3) :=
  (List.range g.na).flatMap (fun ia =>
    let xa := g.xyzAt ia
    (candIdx (vsub lo xa) (vsub hi xa) (inv3 g.sc.cell)).filterMap (fun n =>
      let p := vadd xa (iscShift n g.sc.cell)
      if lo.x ≤ p.x ∧ p.x ≤ hi.x ∧ lo.y ≤ p.y ∧ p.y ≤ hi.y ∧ lo.z ≤ p.z ∧ p.z ≤ hi.z
      then some (ia, n) else none))

/-- Modelled from the spec: the search box the projector hands to
`within_inf` — the axis-aligned cuboid of the grid supercell
(`sc.toCuboid(True)`), inflated by `add_R = geometry.maxR()` on every side
(lines 294–301 of `densitymatrix.py`). -/
def searchLo (gr : Grid) (mR : ℚ) : V3 :=
  ⟨gr.origo.x + min 0 gr.cell.r1.x + min 0 gr.cell.r2.x + min 0 gr.cell.r3.x - mR,
   gr.origo.y + min 0 gr.cell.r1.y + min 0 gr.cell.r2.y + min 0 gr.cell.r3.y - mR,
   gr.origo.z + min 0 gr.cell.r1.z + min 0 gr.cell.r2.z + min 0 gr.cell.r3.z - mR⟩

def searchHi (gr : Grid) (mR : ℚ) : V3 :=
  ⟨gr.origo.x + max 0 gr.cell.r1.x + max 0 gr.cell.r2.x + max 0 gr.cell.r3.x + mR,
   gr.origo.y + max 0 gr.cell.r1.y + max 0 gr.cell.r2.y + max 0 gr.cell.r3.y + mR,
   gr.origo.z + max 0 gr.cell.r1.z + max 0 gr.cell.r2.z + max 0 gr.cell.r3.z + mR⟩

/-! ### Spin, spinor arguments, errors -/

/-- The spin configuration tag (`sisl.physics.spin.Spin`). -/
inductive Spin where
  | unpolarized
  | polarized
  | noncolinear
  | spinorbit
  deriving DecidableEq, Repr

/-- The `spinor` argument of `density`, as the caller passes it: absent, a
Python integer, or an array with its shape and (complex) entries. -/
inductive SpinorArg where
  | defaulted
  | int (n : ℤ)
  | arr (shape : List ℕ) (data : List (ℚ × ℚ))
  deriving DecidableEq, Repr

/-- The validated spinor coefficients the reduction step actually uses. -/
inductive VSpinor where
  | unpol
  | pol (s0 s1 : ℚ)
  | mat (s00 s01 s10 s11 : ℚ × ℚ)
  deriving DecidableEq, Repr

inductive DMError where
  | badSpinorShape
  | indexOut
  deriving DecidableEq, Repr

inductive DWarn where
  | coordsOutsidePrimary
  | atomNoWaveFunction
  deriving DecidableEq, Repr

/-- One numpy floating-point error mode. -/
inductive FPMode where
  | ignore
  | warn
  | raiseErr
  | call
  | print
  | log
  deriving DecidableEq, Repr

/-- The process-wide numpy floating-point error configuration
(`np.seterr` state). -/
structure FPState where
  divide : FPMode
  invalid : FPMode
  over : FPMode
  under : FPMode
  deriving DecidableEq, Repr

/-- Validation and normalization of the `spinor` argument
(lines 194–201 and 221–235 of `densitymatrix.py`).
For polarized spin: `None` defaults to `(1,1)`; a Python integer selects one
channel one-hot (negative integers index from the end as in numpy; an integer
out of `[-2, 2)` is an index error); an array must have `size == 2` and
`ndim == 1`.  For non-collinear/spin-orbit: `None` defaults to the 2×2
identity; anything that `arrayz` does not turn into a `2x2` matrix fails (a
shape with `size == 4` and `ndim == 2` other than `[2,2]` passes the explicit
check but fails in the subsequent `dot`; both are `ValueError`s raised before
any grid mutation, merged here as the shape error).  Unpolarized spin ignores
the argument. -/
def validateSpinor : Spin → SpinorArg → Except DMError VSpinor
  | .unpolarized, _ => .ok .unpol
  | .polarized, .defaulted => .ok (.pol 1 1)
  | .polarized, .int n =>
      if n = 0 ∨ n = -2 then .ok (.pol 1 0)
      else if n = 1 ∨ n = -1 then .ok (.pol 0 1)
      else .error .indexOut
  | .polarized, .arr sh d =>
      if sh.length = 1 ∧ sh.prod = 2 then .ok (.pol (d.getD 0 (0, 0)).1 (d.getD 1 (0, 0)).1)
      else .error .badSpinorShape
  | _, .defaulted => .ok (.mat (1, 0) (0, 0) (0, 0) (1, 0))
  | _, .int _ => .error .badSpinorShape
  | _, .arr sh d =>
      if sh = [2, 2] then
        .ok (.mat (d.getD 0 (0, 0)) (d.getD 1 (0, 0)) (d.getD 2 (0, 0)) (d.getD 3 (0, 0)))
      else .error .badSpinorShape

/-- Real part of a product of two complex numbers given as pairs. -/
def creMul (a b : ℚ × ℚ) : ℚ := a.1 * b.1 - a.2 * b.2

/-- The per-element spin reduction to a scalar (lines 203–242 of
`densitymatrix.py`): unpolarized takes the single component; polarized takes
`D₀·s₀ + D₁·s₁`; non-collinear/spin-orbit rebuild the 2×2 complex spin matrix
`ρ` from the stored real components and take `Re Σ_{ab} ρ_ab σ_ab` (the real
diagonal sum of `dot(ρ, σ.T)`). -/
def redFun : Spin → VSpinor → (ℕ → ℚ) → ℚ
  | _, .unpol, d => d 0
  | _, .pol a b, d => d 0 * a + d 1 * b
  | .noncolinear, .mat s00 s01 s10 s11, d =>
      creMul (d 0, 0) s00 + creMul (d 2, d 3) s01 + creMul (d 2, -(d 3)) s10
        + creMul (d 1, 0) s11
  | _, .mat s00 s01 s10 s11, d =>
      creMul (d 0, d 4) s00 + creMul (d 6, d 7) s01 + creMul (d 2, -(d 3)) s10
        + creMul (d 1, d 5) s11

/-- The validated-then-reduced scalar for one stored element: the composition
the routine applies before building `csrDM`. -/
def reducedEntry (k : Spin) (sp : SpinorArg) (d : ℕ → ℚ) : Except DMError ℚ :=
  (validateSpinor k sp).map (fun v => redFun k v d)

/-! ### The density matrix object -/

/-- Sparse density matrix (`DensityMatrix`): parent geometry, spin
configuration, and the stored elements as `(row-orbital, supercell
column-orbital, components)` triples.  The CSR storage is modelled by the entry
function `Dval`; an absent element behaves as zero. -/
structure DensityMatrix where
  geometry : Geometry
  spin : Spin
  entries : List (ℕ × ℕ × List ℚ)

/-- Component `t` of element `(i, c)`; duplicates sum, as in
`scipy.sparse.csr_matrix` construction. -/
def Dval (dm : DensityMatrix) (i c t : ℕ) : ℚ :=
  ((dm.entries.filter (fun e => e.1 = i ∧ e.2.1 = c)).map (fun e => e.2.2.getD t 0)).sum

/-- The periodic-image fold (lines 260–273 of `densitymatrix.py`): on the
primary-image column block, `triu(csr) + tril(csr, -1).transpose()` — keep the
upper triangle and add the transposed strict lower triangle into it; any other
image block is kept as-is. -/
def foldD (g : Geometry) (red : ℕ → ℕ → ℚ) (i c : ℕ) : ℚ :=
  let s := c / g.no
  let j := c % g.no
  if s = g.primary then
    (if i ≤ j then red i c else 0) + (if i < j then red j (g.primary * g.no + i) else 0)
  else red i c

/-- The tolerance filter (line 277): entries of magnitude ≤ `tol` become exact
zeros (and are subsequently eliminated from the sparse pattern). -/
def foldTol (g : Geometry) (red : ℕ → ℕ → ℚ) (tol : ℚ) (i c : ℕ) : ℚ :=
  if |foldD g red i c| ≤ tol then 0 else foldD g red i c

/-- The supercell atoms connected to atom `ia` in the folded sparse pattern,
excluding the primary-image diagonal (the code builds this as
`toSparseAtom` of the folded matrix with the diagonal deleted; after
`eliminate_zeros` the stored pattern is exactly the nonzero entries). -/
def connected (g : Geometry) (dt : ℕ → ℕ → ℚ) (ia : ℕ) : Finset ℕ :=
  (Finset.range (g.na * g.n_s)).filter (fun ja =>
    ja ≠ g.primary * g.na + ia ∧
      ∃ io ∈ Finset.range (g.atomAt ia).no, ∃ jo ∈ Finset.range (g.atomAt (ja % g.na)).no,
        dt (g.a2o ia + io) (g.a2oSC ja + jo) ≠ 0)

/-- The `1e-6` cutoff-equality slack of the orbital-radius downsizing branches
(lines 452 and 497). -/
def epsR : ℚ := 1 / 1000000

/-- The value the atom loop adds at one covered grid point `q` for one
enumerated atom image `(ia, isc)` (lines 380–529): for each orbital `io` on
`ia`, the `psi_io`-weighted sum of (a) contributions of all connected-atom
orbital pairs, gated by the componentwise and radial cutoff tests of
`xyz2sphericalR` and the per-orbital downsizing, (b) the strict-upper on-site
pairs, and (c) the diagonal on-site term. -/
def atomContrib (g : Geometry) (gr : Grid) (dt : ℕ → ℕ → ℚ) (ia : ℕ) (isc : Z3)
    (q : Z3) : ℚ :=
  let iaA := g.atomAt ia
  let oia := g.a2o ia
  let off := g.no * g.primary
  let cellOff := vsub (iscShift isc g.sc.cell) gr.origo
  let iaXyz := vadd (g.xyzAt ia) cellOff
  let p := posOf gr q
  let dIa := vsub p iaXyz
  let aR := iaA.maxR
  ∑ io ∈ Finset.range iaA.no,
    (iaA.orbAt io).psi dIa *
      ((∑ ja ∈ connected g dt ia,
          (let jaA := g.atomAt (ja % g.na)
           let jR := jaA.maxR
           let dJa := vsub p (vadd (g.axyz ja) cellOff)
           if |dJa.x| ≤ jR ∧ |dJa.y| ≤ jR ∧ |dJa.z| ≤ jR ∧ sq3 dJa ≤ jR ^ 2 then
             ∑ jo ∈ Finset.range jaA.no,
               (if jR - (jaA.orbAt jo).R < epsR ∨ sq3 dJa ≤ (jaA.orbAt jo).R ^ 2 then
                  dt (oia + io) (g.a2oSC ja + jo) * (jaA.orbAt jo).psi dJa
                else 0)
           else 0))
        + (∑ jo ∈ Finset.Ico (io + 1) iaA.no,
            (if aR - (iaA.orbAt jo).R < epsR ∨ sq3 dIa ≤ (iaA.orbAt jo).R ^ 2 then
               dt (oia + io) (off + oia + jo) * (iaA.orbAt jo).psi dIa
             else 0))
        + dt (oia + io) (off + oia + io) * (iaA.orbAt io).psi dIa)

/-- The deduplicated, clamped coverage index set of one atom image
(lines 395–411). -/
def coverage (g : Geometry) (gr : Grid) (ia : ℕ) (isc : Z3) : List Z3 :=
  let iaXyz := vadd (g.xyzAt ia) (vsub (iscShift isc g.sc.cell) gr.origo)
  ((gridIndexSphere gr iaXyz (g.atomAt ia).maxR).map (clampIdx gr.shape)).dedup

/-- One pass of the atom loop: skip the atom when it has no positive-cutoff
orbital, otherwise accumulate `atomContrib` into every covered grid point. -/
def applyAtom (g : Geometry) (dt : ℕ → ℕ → ℚ) (gr : Grid) (ia : ℕ) (isc : Z3) : Grid :=
  if (g.atomAt ia).maxR ≤ 0 then gr
  else
    (coverage g gr ia isc).foldl
      (fun h q => { h with val := Function.update h.val q (h.val q + atomContrib g gr dt ia isc q) })
      gr

/-- Everything `density` gives back: the grid state, the final numpy
floating-point-error configuration, the warnings emitted, and the exception
raised (none on normal return). -/
structure DResult where
  grid : Grid
  fp : FPState
  warns : List DWarn
  err : Option DMError

/-- The coordinate precondition check (lines 172–179): warn iff
`fxyz.min() < 0 or 1 < fxyz.max()`. -/
def coordsOutside (g : Geometry) : Bool :=
  g.fxyzAll.any (fun c => decide (c < 0)) || g.fxyzAll.any (fun c => decide (1 < c))

/-- `DensityMatrix.density` (lines 119–538 of `densitymatrix.py`), embedded.
In source order: the fractional-coordinate warning; saving the numpy error
state and setting divide/invalid to ignore; spinor validation and spin
reduction (an invalid spinor raises here — after `seterr`, before any grid
mutation, and without restoring the error state); the periodic-image fold and
the tolerance filter; the `within_inf` enumeration of atoms reaching into the
inflated grid box; the per-atom accumulation loop (atoms without a
wave-function are skipped with a warning); finally the error-state restore on
the normal path. -/
def density (dm : DensityMatrix) (gr : Grid) (spinor : SpinorArg) (tol : ℚ)
    (fp : FPState) : DResult :=
  let g := dm.geometry
  let warns0 : List DWarn := if coordsOutside g then [.coordsOutsidePrimary] else []
  let fpIgn : FPState := { fp with divide := .ignore, invalid := .ignore }
  match validateSpinor dm.spin spinor with
  | .error e => ⟨gr, fpIgn, warns0, some e⟩
  | .ok v =>
      let red : ℕ → ℕ → ℚ := fun i c => redFun dm.spin v (fun t => Dval dm i c t)
      let dt : ℕ → ℕ → ℚ := foldTol g red tol
      let ias := within_inf g (searchLo gr g.maxR) (searchHi gr g.maxR)
      let loopWarns : List DWarn := ias.filterMap (fun pa =>
        if (g.atomAt pa.1).maxR ≤ 0 then some .atomNoWaveFunction else none)
      let gr2 := ias.foldl (fun h pa => applyAtom g dt h pa.1 pa.2) gr
      ⟨gr2, fp, warns0 ++ loopWarns, none⟩

/-! ### Dk / Ek -/

inductive PkError where
  | notImplemented
  deriving DecidableEq, Repr

/-- Placeholder for a constructed k-point matrix; claim C6 is about the error
behavior of the gauge dispatch, not about the matrix contents. -/
structure PkMatrix where
  k : V3
  format : String
  deriving DecidableEq, Repr

/-- Modelled from the spec: `SparseOrbitalBZSpin.Pk`, the k-point matrix setup
that `DensityMatrix.__init__` installs as `Dk` and `EnergyDensityMatrix.__init__`
installs as `Ek` (`self.Dk = self.Pk`); its implementation is not among the
sampled sources.  Per the spec (§6): gauge `'r'` is accepted but unimplemented
and must fail with a not-implemented error; gauge `'R'` builds the matrix. -/
def Pk (k : V3) (gauge : String) (format : String) : Except PkError PkMatrix :=
  if gauge = "r" then .error .notImplemented else .ok ⟨k, format⟩

/-- `DensityMatrix.Dk` is the instance attribute bound to `Pk` in `__init__`
(line 61 of `densitymatrix.py`; the class-level `def Dk` below it is shadowed
by this binding). -/
def Dk (k : V3) (gauge : String) (format : String) : Except PkError PkMatrix :=
  Pk k gauge format

/-- `EnergyDensityMatrix.Ek` is the instance attribute bound to `Pk` in
`__init__` (line 43 of `energydensitymatrix.py`). -/
def Ek (k : V3) (gauge : String) (format : String) : Except PkError PkMatrix :=
  Pk k gauge format

/-! ### Definitions used to state the claims -/

/-- Well-formedness of the orbital basis assumed by the physical claims: every
orbital has a positive cutoff radius and its wavefunction vanishes beyond the
cutoff (spec §3: "radial cutoff `R` (support radius)... zero outside `R`"). -/
def OrbOK (g : Geometry) : Prop :=
  ∀ pa ∈ g.atoms, ∀ o ∈ pa.1.orbitals,
    0 < o.R ∧ ∀ v : V3, o.R ^ 2 < sq3 v → o.psi v = 0

/-- The exception `density` raises, as determined by spinor validation alone. -/
def spinorErr (k : Spin) (sp : SpinorArg) : Option DMError :=
  match validateSpinor k sp with
  | .ok _ => none
  | .error e => some e

/-- A spinor argument that is not a 2×2 matrix, for the NC/SO validation. -/
def ncBadShape : SpinorArg → Prop
  | .defaulted => False
  | .int _ => True
  | .arr sh _ => ¬sh = [2, 2]

/-- A spinor argument that is neither an integer nor a length-2 vector, for
the polarized validation. -/
def polBadShape : SpinorArg → Prop
  | .arr sh _ => ¬(sh.length = 1 ∧ sh.prod = 2)
  | _ => False

/-- The orbital-pair density field of one enumerated atom image: the sum over
all orbitals `io` on the image of atom `ia` and all supercell orbitals `(ja,
jo)` of `dt · φ_io · φ_jo`, evaluated at the (grid-relative) location of grid
point `q`, where `dt` is the folded, tolerance-filtered matrix. -/
def rhoAtom (g : Geometry) (gr : Grid) (dt : ℕ → ℕ → ℚ) (ia : ℕ) (isc : Z3)
    (q : Z3) : ℚ :=
  let cellOff := vsub (iscShift isc g.sc.cell) gr.origo
  let p := posOf gr q
  let iaA := g.atomAt ia
  ∑ io ∈ Finset.range iaA.no, ∑ ja ∈ Finset.range (g.na * g.n_s),
    ∑ jo ∈ Finset.range (g.atomAt (ja % g.na)).no,
      dt (g.a2o ia + io) (g.a2oSC ja + jo)
        * (iaA.orbAt io).psi (vsub p (vadd (g.xyzAt ia) cellOff))
        * ((g.atomAt (ja % g.na)).orbAt jo).psi (vsub p (vadd (g.axyz ja) cellOff))

/-- The field claim C1 says `density` adds, in the claim's own words:
`ρ(r) = Σ_{ν,μ} φ_ν(r) φ_μ(r) D_{νμ}` over the raw (unfolded, unfiltered)
stored matrix, for an unpolarized matrix, at the physical location of grid
point `q` (rows `ν` over primary-cell orbitals, columns `μ` over supercell
orbitals at their image positions). -/
def rhoClaim (dm : DensityMatrix) (gr : Grid) (q : Z3) : ℚ :=
  let g := dm.geometry
  let r := vadd gr.origo (posOf gr q)
  ∑ ia ∈ Finset.range g.na, ∑ io ∈ Finset.range (g.atomAt ia).no,
    ∑ ja ∈ Finset.range (g.na * g.n_s),
      ∑ jo ∈ Finset.range (g.atomAt (ja % g.na)).no,
        Dval dm (g.a2o ia + io) (g.a2oSC ja + jo) 0
          * ((g.atomAt ia).orbAt io).psi (vsub r (g.xyzAt ia))
          * ((g.atomAt (ja % g.na)).orbAt jo).psi (vsub r (g.axyz ja))

/-- Two spin components as a component function, for stating the polarized
reduction. -/
def cmp2 (u d : ℚ) : ℕ → ℚ := fun t => if t = 0 then u else if t = 1 then d else 0

/-! ### A small concrete instance (used by witnesses and counterexamples):
one atom at the origin of a cubic cell of side 10, carrying a single orbital
of cutoff 1 whose wavefunction is the indicator of its support ball, and a
1×1×1 grid over the same cell. -/

def cellT : M3 := ⟨⟨10, 0, 0⟩, ⟨0, 10, 0⟩, ⟨0, 0, 10⟩⟩

def orbT : Orbital := ⟨1, fun v => if sq3 v ≤ 1 then 1 else 0⟩

def atomT : Atom := ⟨[orbT]⟩

def scT : SuperCell := ⟨cellT, ⟨1, 1, 1⟩, [⟨0, 0, 0⟩], ⟨0, 0, 0⟩⟩

def geomT : Geometry := ⟨[(atomT, ⟨0, 0, 0⟩)], scT⟩

def gridT : Grid := ⟨⟨1, 1, 1⟩, cellT, cellT, ⟨0, 0, 0⟩, fun _ => 0⟩

def dmT (w : ℚ) : DensityMatrix := ⟨geomT, .unpolarized, [(0, 0, [w])]⟩

def fpT : FPState := ⟨.warn, .warn, .raiseErr, .warn⟩

/-- Same instance with the atom moved to `(10,0,0)`: its fractional coordinate
is exactly 1, on the boundary case of the coordinate check. -/
def geomC8 : Geometry := ⟨[(atomT, ⟨10, 0, 0⟩)], scT⟩

def dmC8 : DensityMatrix := ⟨geomC8, .unpolarized, []⟩

def dmSO : DensityMatrix := ⟨geomT, .spinorbit, []⟩

def dmPol : DensityMatrix := ⟨geomT, .polarized, []⟩

/-- A two-orbital atom for the fold-symmetry witness. -/
def atomT2 : Atom := ⟨[orbT, orbT]⟩

def geomT2 : Geometry := ⟨[(atomT2, ⟨0, 0, 0⟩)], scT⟩

end Sisl

namespace Sisl

/-! ## Supporting lemmas -/

theorem normNsc_odd (v : ℤ) : Odd (normNsc v) := by
  unfold normNsc
  split
  · exact odd_one
  · split
    · rename_i h1 h2
      exact Int.odd_iff.mpr h2
    · rename_i h1 h2
      have hev : v % 2 = 0 := by omega
      have : Even v := Int.even_iff.mpr hev
      simpa using this.add_one

theorem normNsc_pos (v : ℤ) : 1 ≤ normNsc v := by
  unfold normNsc
  split
  · omega
  · split <;> omega

theorem rangeZ_length (lo hi : ℤ) : (rangeZ lo hi).length = (hi + 1 - lo).toNat := by
  rw [rangeZ, List.length_map, List.length_range]

theorem length_flatMap_const {α β : Type} (l : List α) (f : α → List β) (k : ℕ)
    (h : ∀ a ∈ l, (f a).length = k) : (l.flatMap f).length = l.length * k := by
  induction l with
  | nil => simp
  | cons x xs ih =>
      rw [List.flatMap_cons, List.length_append, h x (List.mem_cons_self x xs),
        ih (fun a ha => h a (List.mem_cons_of_mem x ha)), List.length_cons]
      ring

theorem scOffList_length (n : Z3) (h1 : 1 ≤ n.x) (h2 : 1 ≤ n.y) (h3 : 1 ≤ n.z)
    (o1 : Odd n.x) (o2 : Odd n.y) (o3 : Odd n.z) :
    ((scOffList n).length : ℤ) = n.x * n.y * n.z := by
  obtain ⟨a, ha⟩ := o1
  obtain ⟨b, hb⟩ := o2
  obtain ⟨c, hc⟩ := o3
  have lenc : ∀ lo hi : ℤ, (rangeZ lo hi).length = (hi + 1 - lo).toNat := rangeZ_length
  have hlen : (scOffList n).length
      = (n.x / 2 + 1 + n.x / 2).toNat * ((n.y / 2 + 1 + n.y / 2).toNat
        * (n.z / 2 + 1 + n.z / 2).toNat) := by
    unfold scOffList
    rw [length_flatMap_const _ _ ((n.y / 2 + 1 + n.y / 2).toNat
        * (n.z / 2 + 1 + n.z / 2).toNat)]
    · rw [lenc]
      congr 1
      omega
    · intro i _
      rw [length_flatMap_const _ _ ((n.z / 2 + 1 + n.z / 2).toNat)]
      · rw [lenc]
        congr 1
        omega
      · intro j _
        rw [List.length_map, lenc]
        congr 1
        omega
  rw [hlen]
  have e1 : n.x / 2 = a := by omega
  have e2 : n.y / 2 = b := by omega
  have e3 : n.z / 2 = c := by omega
  rw [e1, e2, e3]
  have hA : (a + 1 + a).toNat = ((2 * a + 1 : ℤ)).toNat := by omega
  have hB : (b + 1 + b).toNat = ((2 * b + 1 : ℤ)).toNat := by omega
  have hC : (c + 1 + c).toNat = ((2 * c + 1 : ℤ)).toNat := by omega
  rw [hA, hB, hC, ha, hb, hc]
  have pa : (0:ℤ) ≤ 2 * a + 1 := by omega
  have pb : (0:ℤ) ≤ 2 * b + 1 := by omega
  have pc : (0:ℤ) ≤ 2 * c + 1 := by omega
  push_cast [Int.toNat_of_nonneg pa, Int.toNat_of_nonneg pb, Int.toNat_of_nonneg pc]
  ring

theorem mem_rangeZ {lo hi a : ℤ} : a ∈ rangeZ lo hi ↔ lo ≤ a ∧ a ≤ hi := by
  constructor
  · intro h
    rw [rangeZ, List.mem_map] at h
    obtain ⟨t, ht, rfl⟩ := h
    rw [List.mem_range] at ht
    omega
  · intro ⟨h1, h2⟩
    rw [rangeZ, List.mem_map]
    refine ⟨(a - lo).toNat, ?_, by omega⟩
    rw [List.mem_range]
    omega

theorem ivLo_le {lo hi a p : ℚ} (h1 : lo ≤ p) (h2 : p ≤ hi) : ivLo lo hi a ≤ p * a := by
  rcases le_total 0 a with ha | ha
  · exact le_trans (min_le_left _ _) (mul_le_mul_of_nonneg_right h1 ha)
  · exact le_trans (min_le_right _ _) (mul_le_mul_of_nonpos_right h2 ha)

theorem le_ivHi {lo hi a p : ℚ} (h1 : lo ≤ p) (h2 : p ≤ hi) : p * a ≤ ivHi lo hi a := by
  rcases le_total 0 a with ha | ha
  · exact le_trans (mul_le_mul_of_nonneg_right h2 ha) (le_max_right _ _)
  · exact le_trans (mul_le_mul_of_nonpos_right h1 ha) (le_max_left _ _)

/-- The interval-arithmetic soundness of the candidate bounds: a point inside
the box is mapped between `boxMulLo` and `boxMulHi`. -/
theorem boxMul_bounds {lo hi p : V3} (n : M3)
    (hx1 : lo.x ≤ p.x) (hx2 : p.x ≤ hi.x) (hy1 : lo.y ≤ p.y) (hy2 : p.y ≤ hi.y)
    (hz1 : lo.z ≤ p.z) (hz2 : p.z ≤ hi.z) :
    ((boxMulLo lo hi n).x ≤ (vmul p n).x ∧ (vmul p n).x ≤ (boxMulHi lo hi n).x)
    ∧ ((boxMulLo lo hi n).y ≤ (vmul p n).y ∧ (vmul p n).y ≤ (boxMulHi lo hi n).y)
    ∧ ((boxMulLo lo hi n).z ≤ (vmul p n).z ∧ (vmul p n).z ≤ (boxMulHi lo hi n).z) := by
  have c1 := ivLo_le (a := n.r1.x) hx1 hx2
  have c2 := ivLo_le (a := n.r2.x) hy1 hy2
  have c3 := ivLo_le (a := n.r3.x) hz1 hz2
  have c4 := le_ivHi (a := n.r1.x) hx1 hx2
  have c5 := le_ivHi (a := n.r2.x) hy1 hy2
  have c6 := le_ivHi (a := n.r3.x) hz1 hz2
  have d1 := ivLo_le (a := n.r1.y) hx1 hx2
  have d2 := ivLo_le (a := n.r2.y) hy1 hy2
  have d3 := ivLo_le (a := n.r3.y) hz1 hz2
  have d4 := le_ivHi (a := n.r1.y) hx1 hx2
  have d5 := le_ivHi (a := n.r2.y) hy1 hy2
  have d6 := le_ivHi (a := n.r3.y) hz1 hz2
  have e1 := ivLo_le (a := n.r1.z) hx1 hx2
  have e2 := ivLo_le (a := n.r2.z) hy1 hy2
  have e3 := ivLo_le (a := n.r3.z) hz1 hz2
  have e4 := le_ivHi (a := n.r1.z) hx1 hx2
  have e5 := le_ivHi (a := n.r2.z) hy1 hy2
  have e6 := le_ivHi (a := n.r3.z) hz1 hz2
  simp only [boxMulLo, boxMulHi, vmul, vadd, smul]
  refine ⟨⟨?_, ?_⟩, ⟨?_, ?_⟩, ⟨?_, ?_⟩⟩ <;> linarith

/-- Completeness of the candidate enumeration: an integer triple sitting
between the interval bounds is listed. -/
theorem mem_candIdx {lo hi : V3} {n : M3} {q : Z3}
    (h1 : (boxMulLo lo hi n).x ≤ (q.x : ℚ)) (h2 : (q.x : ℚ) ≤ (boxMulHi lo hi n).x)
    (h3 : (boxMulLo lo hi n).y ≤ (q.y : ℚ)) (h4 : (q.y : ℚ) ≤ (boxMulHi lo hi n).y)
    (h5 : (boxMulLo lo hi n).z ≤ (q.z : ℚ)) (h6 : (q.z : ℚ) ≤ (boxMulHi lo hi n).z) :
    q ∈ candIdx lo hi n := by
  have fx : ⌊(boxMulLo lo hi n).x⌋ ≤ q.x := by
    have := Int.floor_le_floor h1
    simpa using this
  have fy : ⌊(boxMulLo lo hi n).y⌋ ≤ q.y := by
    have := Int.floor_le_floor h3
    simpa using this
  have fz : ⌊(boxMulLo lo hi n).z⌋ ≤ q.z := by
    have := Int.floor_le_floor h5
    simpa using this
  have cx : q.x ≤ ⌈(boxMulHi lo hi n).x⌉ := by
    have := Int.ceil_le_ceil h2
    simpa using this
  have cy : q.y ≤ ⌈(boxMulHi lo hi n).y⌉ := by
    have := Int.ceil_le_ceil h4
    simpa using this
  have cz : q.z ≤ ⌈(boxMulHi lo hi n).z⌉ := by
    have := Int.ceil_le_ceil h6
    simpa using this
  unfold candIdx
  rw [List.mem_flatMap]
  refine ⟨q.x, mem_rangeZ.mpr ⟨fx, cx⟩, ?_⟩
  rw [List.mem_flatMap]
  refine ⟨q.y, mem_rangeZ.mpr ⟨fy, cy⟩, ?_⟩
  rw [List.mem_map]
  exact ⟨q.z, mem_rangeZ.mpr ⟨fz, cz⟩, rfl⟩

theorem vmul_mulMM (v : V3) (a b : M3) : vmul (vmul v a) b = vmul v (mulMM a b) := by
  obtain ⟨vx, vy, vz⟩ := v
  obtain ⟨⟨a11, a12, a13⟩, ⟨a21, a22, a23⟩, ⟨a31, a32, a33⟩⟩ := a
  obtain ⟨⟨b11, b12, b13⟩, ⟨b21, b22, b23⟩, ⟨b31, b32, b33⟩⟩ := b
  simp only [vmul, mulMM, vadd, smul, V3.mk.injEq]
  refine ⟨by ring, by ring, by ring⟩

theorem vmul_idM3 (v : V3) : vmul v idM3 = v := by
  obtain ⟨vx, vy, vz⟩ := v
  simp only [vmul, idM3, vadd, smul, V3.mk.injEq]
  refine ⟨by ring, by ring, by ring⟩

/-! ### Grid accumulation lemmas -/

theorem foldl_update_val (f : Z3 → ℚ) (l : List Z3) (hnd : l.Nodup) (gr : Grid) (q : Z3) :
    (l.foldl (fun h p => { h with val := Function.update h.val p (h.val p + f p) }) gr).val q
      = gr.val q + if q ∈ l then f q else 0 := by
  induction l generalizing gr with
  | nil => simp
  | cons a t ih =>
      have ha : a ∉ t := (List.nodup_cons.mp hnd).1
      have hnd' : t.Nodup := (List.nodup_cons.mp hnd).2
      rw [List.foldl_cons, ih hnd']
      by_cases hq : q = a
      · subst hq
        simp [Function.update_same, if_neg ha]
      · simp [Function.update_noteq hq, List.mem_cons, hq]

theorem foldl_update_frame (f : Z3 → ℚ) (l : List Z3) (gr : Grid) :
    (l.foldl (fun h p => { h with val := Function.update h.val p (h.val p + f p) }) gr).shape
        = gr.shape
      ∧ (l.foldl (fun h p => { h with val := Function.update h.val p (h.val p + f p) }) gr).dcell
        = gr.dcell
      ∧ (l.foldl (fun h p => { h with val := Function.update h.val p (h.val p + f p) }) gr).origo
        = gr.origo
      ∧ (l.foldl (fun h p => { h with val := Function.update h.val p (h.val p + f p) }) gr).cell
        = gr.cell := by
  induction l generalizing gr with
  | nil => exact ⟨rfl, rfl, rfl, rfl⟩
  | cons a t ih => exact ih _

theorem applyAtom_val (g : Geometry) (dt : ℕ → ℕ → ℚ) (gr : Grid) (ia : ℕ) (isc : Z3)
    (q : Z3) :
    (applyAtom g dt gr ia isc).val q = gr.val q +
      (if (g.atomAt ia).maxR ≤ 0 then 0
       else if q ∈ coverage g gr ia isc then atomContrib g gr dt ia isc q else 0) := by
  unfold applyAtom
  split
  · simp
  · exact foldl_update_val (atomContrib g gr dt ia isc) (coverage g gr ia isc)
      (List.nodup_dedup _) gr q

theorem applyAtom_frame (g : Geometry) (dt : ℕ → ℕ → ℚ) (gr : Grid) (ia : ℕ) (isc : Z3) :
    (applyAtom g dt gr ia isc).shape = gr.shape
      ∧ (applyAtom g dt gr ia isc).dcell = gr.dcell
      ∧ (applyAtom g dt gr ia isc).origo = gr.origo
      ∧ (applyAtom g dt gr ia isc).cell = gr.cell := by
  unfold applyAtom
  split
  · exact ⟨rfl, rfl, rfl, rfl⟩
  · exact foldl_update_frame _ _ gr

theorem coverage_congr (g : Geometry) (h gr : Grid) (hsh : h.shape = gr.shape)
    (hd : h.dcell = gr.dcell) (ho : h.origo = gr.origo) (ia : ℕ) (isc : Z3) :
    coverage g h ia isc = coverage g gr ia isc := by
  simp only [coverage, gridIndexSphere, posOf, hsh, hd, ho]

theorem atomContrib_congr (g : Geometry) (dt : ℕ → ℕ → ℚ) (h gr : Grid)
    (hd : h.dcell = gr.dcell) (ho : h.origo = gr.origo) (ia : ℕ) (isc : Z3) (q : Z3) :
    atomContrib g h dt ia isc q = atomContrib g gr dt ia isc q := by
  simp only [atomContrib, posOf, hd, ho]

/-- Value of the grid after the whole atom loop: the original value plus the
sum of the per-atom-image contributions at covered points. -/
theorem loop_val (g : Geometry) (dt : ℕ → ℕ → ℚ) (ias : List (ℕ × Z3)) (gr0 : Grid)
    (q : Z3) :
    ∀ h : Grid, h.shape = gr0.shape → h.dcell = gr0.dcell → h.origo = gr0.origo →
      (ias.foldl (fun h pa => applyAtom g dt h pa.1 pa.2) h).val q
        = h.val q + (ias.map (fun pa =>
            if (g.atomAt pa.1).maxR ≤ 0 then 0
            else if q ∈ coverage g gr0 pa.1 pa.2 then atomContrib g gr0 dt pa.1 pa.2 q
            else 0)).sum := by
  induction ias with
  | nil => intro h _ _ _; simp
  | cons pa t ih =>
      intro h hsh hd ho
      rw [List.foldl_cons]
      obtain ⟨fsh, fd, fo, _⟩ := applyAtom_frame g dt h pa.1 pa.2
      rw [ih (applyAtom g dt h pa.1 pa.2) (fsh.trans hsh) (fd.trans hd) (fo.trans ho)]
      rw [applyAtom_val, coverage_congr g h gr0 hsh hd ho,
        atomContrib_congr g dt h gr0 hd ho]
      rw [List.map_cons, List.sum_cons]
      ring

/-! ### Unfolding `density` on the two validation outcomes -/

theorem density_of_error (dm : DensityMatrix) (gr : Grid) (sp : SpinorArg) (tol : ℚ)
    (fp : FPState) (e : DMError) (hv : validateSpinor dm.spin sp = .error e) :
    density dm gr sp tol fp
      = ⟨gr, { fp with divide := .ignore, invalid := .ignore },
          if coordsOutside dm.geometry then [.coordsOutsidePrimary] else [], some e⟩ := by
  unfold density
  rw [hv]

theorem density_of_ok (dm : DensityMatrix) (gr : Grid) (sp : SpinorArg) (tol : ℚ)
    (fp : FPState) (v : VSpinor) (hv : validateSpinor dm.spin sp = .ok v) :
    density dm gr sp tol fp
      = ⟨(within_inf dm.geometry (searchLo gr dm.geometry.maxR)
            (searchHi gr dm.geometry.maxR)).foldl
            (fun h pa => applyAtom dm.geometry
              (foldTol dm.geometry
                (fun i c => redFun dm.spin v (fun t => Dval dm i c t)) tol) h pa.1 pa.2) gr,
          fp,
          (if coordsOutside dm.geometry then [.coordsOutsidePrimary] else [])
            ++ (within_inf dm.geometry (searchLo gr dm.geometry.maxR)
                  (searchHi gr dm.geometry.maxR)).filterMap (fun pa =>
                if (dm.geometry.atomAt pa.1).maxR ≤ 0 then some .atomNoWaveFunction else none),
          none⟩ := by
  unfold density
  rw [hv]

/-- The grid value `density` leaves at `q` on a successful call. -/
theorem density_val_ok (dm : DensityMatrix) (gr : Grid) (sp : SpinorArg) (tol : ℚ)
    (fp : FPState) (v : VSpinor) (hv : validateSpinor dm.spin sp = .ok v) (q : Z3) :
    (density dm gr sp tol fp).grid.val q
      = gr.val q + ((within_inf dm.geometry (searchLo gr dm.geometry.maxR)
            (searchHi gr dm.geometry.maxR)).map (fun pa =>
          if (dm.geometry.atomAt pa.1).maxR ≤ 0 then 0
          else if q ∈ coverage dm.geometry gr pa.1 pa.2 then
            atomContrib dm.geometry gr
              (foldTol dm.geometry
                (fun i c => redFun dm.spin v (fun t => Dval dm i c t)) tol) pa.1 pa.2 q
          else 0)).sum := by
  rw [density_of_ok dm gr sp tol fp v hv]
  exact loop_val dm.geometry _ _ gr q gr rfl rfl rfl

theorem mem_within_inf_lt {g : Geometry} {lo hi : V3} {pa : ℕ × Z3}
    (h : pa ∈ within_inf g lo hi) : pa.1 < g.na := by
  unfold within_inf at h
  rw [List.mem_flatMap] at h
  obtain ⟨ia, hia, hmem⟩ := h
  rw [List.mem_filterMap] at hmem
  obtain ⟨n, _, heq⟩ := hmem
  dsimp only at heq
  split at heq
  · cases heq
    exact List.mem_range.mp hia
  · cases heq

/-! ### Zero-matrix collapse -/

theorem atomContrib_of_zero (g : Geometry) (gr : Grid) (dt : ℕ → ℕ → ℚ) (ia : ℕ)
    (isc : Z3) (q : Z3) (hz : ∀ i c, dt i c = 0) : atomContrib g gr dt ia isc q = 0 := by
  simp [atomContrib, hz]

/-- If the folded, tolerance-filtered matrix is identically zero, `density`
leaves every grid value unchanged (on the error path the grid is untouched
anyway). -/
theorem density_val_unchanged (dm : DensityMatrix) (gr : Grid) (sp : SpinorArg) (tol : ℚ)
    (fp : FPState)
    (hz : ∀ v, validateSpinor dm.spin sp = .ok v →
      ∀ i c, foldTol dm.geometry
        (fun i c => redFun dm.spin v (fun t => Dval dm i c t)) tol i c = 0)
    (q : Z3) : (density dm gr sp tol fp).grid.val q = gr.val q := by
  cases hv : validateSpinor dm.spin sp with
  | error e => rw [density_of_error dm gr sp tol fp e hv]
  | ok v =>
      rw [density_val_ok dm gr sp tol fp v hv q]
      have hterm : ∀ x ∈ (within_inf dm.geometry (searchLo gr dm.geometry.maxR)
          (searchHi gr dm.geometry.maxR)).map (fun pa =>
            if (dm.geometry.atomAt pa.1).maxR ≤ 0 then 0
            else if q ∈ coverage dm.geometry gr pa.1 pa.2 then
              atomContrib dm.geometry gr
                (foldTol dm.geometry
                  (fun i c => redFun dm.spin v (fun t => Dval dm i c t)) tol) pa.1 pa.2 q
            else 0), x = 0 := by
        intro x hx
        rw [List.mem_map] at hx
        obtain ⟨pa, _, rfl⟩ := hx
        split
        · rfl
        · split
          · exact atomContrib_of_zero _ _ _ _ _ _ (hz v hv)
          · rfl
      rw [List.sum_eq_zero hterm, add_zero]

/-! ## Claim theorems (easy group) -/

/-- Claim C9: for every input `n`, after `set_nsc(n)` every component of the
stored `nsc` is odd and ≥ 1, and the length of the periodic-image list
`sc_off` equals the product of the `nsc` components; in particular
`set_nsc([5,5,0])` stores `nsc == [5,5,1]` with an image list of length 25. -/
theorem set_nsc_invariants (sc : SuperCell) (n : Z3) :
    (Odd (set_nsc sc n).nsc.x ∧ Odd (set_nsc sc n).nsc.y ∧ Odd (set_nsc sc n).nsc.z)
    ∧ (1 ≤ (set_nsc sc n).nsc.x ∧ 1 ≤ (set_nsc sc n).nsc.y ∧ 1 ≤ (set_nsc sc n).nsc.z)
    ∧ ((set_nsc sc n).sc_off.length : ℤ)
        = (set_nsc sc n).nsc.x * (set_nsc sc n).nsc.y * (set_nsc sc n).nsc.z
    ∧ (set_nsc sc ⟨5, 5, 0⟩).nsc = ⟨5, 5, 1⟩
    ∧ (set_nsc sc ⟨5, 5, 0⟩).sc_off.length = 25 := by
  refine ⟨⟨normNsc_odd _, normNsc_odd _, normNsc_odd _⟩,
    ⟨normNsc_pos _, normNsc_pos _, normNsc_pos _⟩, ?_, ?_, ?_⟩
  · exact scOffList_length ⟨normNsc n.x, normNsc n.y, normNsc n.z⟩
      (normNsc_pos _) (normNsc_pos _) (normNsc_pos _)
      (normNsc_odd _) (normNsc_odd _) (normNsc_odd _)
  · show (⟨normNsc 5, normNsc 5, normNsc 0⟩ : Z3) = ⟨5, 5, 1⟩
    decide
  · show (scOffList ⟨normNsc 5, normNsc 5, normNsc 0⟩).length = 25
    decide

/-- Claim C6: for every k-point and output format, `Dk`/`Ek` with gauge `'r'`
fail with the not-implemented error; they neither fall back to the `'R'` gauge
nor return a placeholder value (the result is never `.ok`). -/
theorem Dk_gauge_r_not_implemented (k : V3) (fmt : String) :
    Dk k "r" fmt = .error .notImplemented ∧ Ek k "r" fmt = .error .notImplemented
      ∧ ∀ m : PkMatrix, Dk k "r" fmt ≠ .ok m ∧ Ek k "r" fmt ≠ .ok m := by
  refine ⟨rfl, rfl, fun m => ⟨?_, ?_⟩⟩ <;> intro h <;> simp [Dk, Ek, Pk] at h

/-- Claim C10: `density` saves the numpy floating-point-error configuration at
entry and sets divide/invalid to ignore; on normal return the saved
configuration is restored, while on the spinor-validation error path it is not
restored and stays at the ignore setting. -/
theorem density_seterr (dm : DensityMatrix) (gr : Grid) (sp : SpinorArg) (tol : ℚ)
    (fp : FPState) :
    ((density dm gr sp tol fp).err = none → (density dm gr sp tol fp).fp = fp)
    ∧ (∀ e, (density dm gr sp tol fp).err = some e →
        (density dm gr sp tol fp).fp = { fp with divide := .ignore, invalid := .ignore }) := by
  cases hv : validateSpinor dm.spin sp with
  | error e =>
      rw [density_of_error dm gr sp tol fp e hv]
      constructor
      · intro h
        cases h
      · intro e' _
        rfl
  | ok v =>
      rw [density_of_ok dm gr sp tol fp v hv]
      constructor
      · intro _
        rfl
      · intro e' h
        cases h

theorem density_seterr_witness :
    ((density (dmT 1) gridT .defaulted 0 fpT).err = none
      ∧ (density (dmT 1) gridT .defaulted 0 fpT).fp = fpT)
    ∧ ((density dmSO gridT (.int 0) 0 fpT).err = some .badSpinorShape
      ∧ (density dmSO gridT (.int 0) 0 fpT).fp
          = { fpT with divide := .ignore, invalid := .ignore }) := by
  have herr1 : (density (dmT 1) gridT .defaulted 0 fpT).err = none := by
    rw [density_of_ok (dmT 1) gridT .defaulted 0 fpT .unpol rfl]
  have herr2 : (density dmSO gridT (.int 0) 0 fpT).err = some .badSpinorShape := by
    rw [density_of_error dmSO gridT (.int 0) 0 fpT .badSpinorShape rfl]
  exact ⟨⟨herr1, (density_seterr (dmT 1) gridT .defaulted 0 fpT).1 herr1⟩,
    ⟨herr2, (density_seterr dmSO gridT (.int 0) 0 fpT).2 .badSpinorShape herr2⟩⟩

/-- Claim C4: for a non-collinear or spin-orbit matrix, a `spinor` that is not
a 2×2 matrix makes `density` raise the shape-validation error, and for a
polarized matrix a `spinor` that is neither an integer nor a length-2 vector
does the same; in both cases the error is raised before any grid mutation, so
the grid comes back unchanged. -/
theorem density_bad_spinor (dm : DensityMatrix) (gr : Grid) (sp : SpinorArg) (tol : ℚ)
    (fp : FPState) :
    ((dm.spin = .noncolinear ∨ dm.spin = .spinorbit) → ncBadShape sp →
      (density dm gr sp tol fp).err = some .badSpinorShape
        ∧ (density dm gr sp tol fp).grid = gr)
    ∧ (dm.spin = .polarized → polBadShape sp →
      (density dm gr sp tol fp).err = some .badSpinorShape
        ∧ (density dm gr sp tol fp).grid = gr) := by
  constructor
  · intro hk hb
    have hv : validateSpinor dm.spin sp = .error .badSpinorShape := by
      rcases hk with hk | hk <;> rw [hk] <;> cases sp with
      | defaulted => exact absurd hb (by simp [ncBadShape])
      | int n => rfl
      | arr sh d =>
          have hb' : ¬sh = [2, 2] := hb
          simp [validateSpinor, hb']
    rw [density_of_error dm gr sp tol fp _ hv]
    exact ⟨rfl, rfl⟩
  · intro hk hb
    have hv : validateSpinor dm.spin sp = .error .badSpinorShape := by
      rw [hk]
      cases sp with
      | defaulted => exact absurd hb (by simp [polBadShape])
      | int n => exact absurd hb (by simp [polBadShape])
      | arr sh d =>
          have hb' : ¬(sh.length = 1 ∧ sh.prod = 2) := hb
          simp [validateSpinor, hb']
    rw [density_of_error dm gr sp tol fp _ hv]
    exact ⟨rfl, rfl⟩

theorem density_bad_spinor_witness :
    ((dmSO.spin = .noncolinear ∨ dmSO.spin = .spinorbit) ∧ ncBadShape (SpinorArg.int 0)
      ∧ (density dmSO gridT (.int 0) 0 fpT).err = some .badSpinorShape
      ∧ (density dmSO gridT (.int 0) 0 fpT).grid = gridT)
    ∧ (dmPol.spin = .polarized ∧ polBadShape (SpinorArg.arr [2, 2] [])
      ∧ (density dmPol gridT (.arr [2, 2] []) 0 fpT).err = some .badSpinorShape
      ∧ (density dmPol gridT (.arr [2, 2] []) 0 fpT).grid = gridT) := by
  have h1 := (density_bad_spinor dmSO gridT (.int 0) 0 fpT).1 (Or.inr rfl) trivial
  have hb : polBadShape (SpinorArg.arr [2, 2] []) := by
    simp [polBadShape]
  have h2 := (density_bad_spinor dmPol gridT (.arr [2, 2] []) 0 fpT).2 rfl hb
  exact ⟨⟨Or.inr rfl, trivial, h1.1, h1.2⟩, ⟨rfl, hb, h2.1, h2.2⟩⟩

/-- Claim C3: the polarized spin reduction: `spinor=0` selects exactly the up
value, `spinor=1` exactly the down value, the default gives their sum, and a
2-vector `spinor` gives `D_up·s₀ + D_down·s₁`. -/
theorem spin_reduction_polarized (u d s0 s1 : ℚ) :
    reducedEntry .polarized (.int 0) (cmp2 u d) = .ok u
    ∧ reducedEntry .polarized (.int 1) (cmp2 u d) = .ok d
    ∧ reducedEntry .polarized .defaulted (cmp2 u d) = .ok (u + d)
    ∧ reducedEntry .polarized (.arr [2] [(s0, 0), (s1, 0)]) (cmp2 u d)
        = .ok (u * s0 + d * s1) := by
  refine ⟨?_, ?_, ?_, ?_⟩ <;> exact congrArg Except.ok (by simp [redFun, cmp2]; try ring)

/-! ### Zero and single-entry matrices -/

theorem validateSpinor_unpol (sp : SpinorArg) :
    validateSpinor .unpolarized sp = .ok .unpol := by
  cases sp <;> rfl

theorem getD_zero_of_all_zero {l : List ℚ} (h : ∀ x ∈ l, x = 0) (t : ℕ) :
    l.getD t 0 = 0 := by
  by_cases ht : t < l.length
  · rw [List.getD_eq_getElem l 0 ht]
    exact h _ (l.getElem_mem ht)
  · exact List.getD_eq_default l 0 (by omega)

theorem redFun_zero (k : Spin) (v : VSpinor) (d : ℕ → ℚ) (h : ∀ t, d t = 0) :
    redFun k v d = 0 := by
  cases k <;> cases v <;> simp [redFun, creMul, h]

theorem foldD_zero (g : Geometry) (red : ℕ → ℕ → ℚ) (h : ∀ i c, red i c = 0)
    (i c : ℕ) : foldD g red i c = 0 := by
  unfold foldD
  dsimp only
  split
  · rw [h, h]
    simp
  · exact h i c

theorem foldTol_of_foldD_zero (g : Geometry) (red : ℕ → ℕ → ℚ) (tol : ℚ)
    (h : ∀ i c, foldD g red i c = 0) (i c : ℕ) : foldTol g red tol i c = 0 := by
  unfold foldTol
  rw [h]
  simp

/-- Claim C7: projecting a density matrix whose stored entries are all zero
leaves every grid value unchanged, for every grid, spinor argument, tolerance
and spin configuration. -/
theorem density_zero_identity (dm : DensityMatrix) (gr : Grid) (sp : SpinorArg)
    (tol : ℚ) (fp : FPState) (hz : ∀ e ∈ dm.entries, ∀ x ∈ e.2.2, x = (0 : ℚ))
    (q : Z3) : (density dm gr sp tol fp).grid.val q = gr.val q := by
  apply density_val_unchanged
  intro v _ i c
  have hDv : ∀ i c t, Dval dm i c t = 0 := by
    intro i c t
    apply List.sum_eq_zero
    intro x hx
    rw [List.mem_map] at hx
    obtain ⟨e, he, rfl⟩ := hx
    exact getD_zero_of_all_zero (hz e (List.mem_of_mem_filter he)) t
  have hred : ∀ i c, redFun dm.spin v (fun t => Dval dm i c t) = 0 := by
    intro i c
    exact redFun_zero _ _ _ (fun t => hDv i c t)
  exact foldTol_of_foldD_zero _ _ _ (foldD_zero _ _ hred) i c

theorem density_zero_identity_witness :
    (∀ e ∈ dmSO.entries, ∀ x ∈ e.2.2, x = (0 : ℚ))
    ∧ (density dmSO gridT .defaulted 0 fpT).grid.val ⟨0, 0, 0⟩ = gridT.val ⟨0, 0, 0⟩ := by
  have hz : ∀ e ∈ dmSO.entries, ∀ x ∈ e.2.2, x = (0 : ℚ) := by
    intro e he
    cases he
  exact ⟨hz, density_zero_identity dmSO gridT .defaulted 0 fpT hz ⟨0, 0, 0⟩⟩

theorem Dval_single (g : Geometry) (k : Spin) (i0 c0 : ℕ) (l : List ℚ) (i c t : ℕ) :
    Dval ⟨g, k, [(i0, c0, l)]⟩ i c t = if i = i0 ∧ c = c0 then l.getD t 0 else 0 := by
  rcases Decidable.em (i = i0 ∧ c = c0) with h | h
  · obtain ⟨rfl, rfl⟩ := h
    simp [Dval]
  · rw [if_neg h]
    have : ¬(i0 = i ∧ c0 = c) := by
      intro ⟨h1, h2⟩
      exact h ⟨h1.symm, h2.symm⟩
    simp [Dval, this]

/-- For a single-entry matrix of value `w`, every folded entry has magnitude
at most `|w|` (the fold moves the entry or keeps it, but never doubles it). -/
theorem foldD_single_abs_le (g : Geometry) (i0 c0 : ℕ) (w : ℚ) (red : ℕ → ℕ → ℚ)
    (hred : ∀ i c, red i c = if i = i0 ∧ c = c0 then w else 0) (i c : ℕ) :
    |foldD g red i c| ≤ |w| := by
  have habs : ∀ i c, |red i c| ≤ |w| := by
    intro i c
    rw [hred]
    split
    · exact le_refl _
    · simp [abs_nonneg]
  unfold foldD
  dsimp only
  split
  · rename_i hs
    set j := c % g.no with hj
    rcases lt_trichotomy i j with hij | hij | hij
    · rw [if_pos (le_of_lt hij), if_pos hij]
      rcases Decidable.em (red i c = 0) with h1 | h1
      · rw [h1, zero_add]
        exact habs _ _
      · rcases Decidable.em (red j (g.primary * g.no + i) = 0) with h2 | h2
        · rw [h2, add_zero]
          exact habs _ _
        · exfalso
          have e1 : i = i0 ∧ c = c0 := by
            by_contra hcon
            rw [hred, if_neg hcon] at h1
            exact h1 rfl
          have e2 : j = i0 ∧ g.primary * g.no + i = c0 := by
            by_contra hcon
            rw [hred, if_neg hcon] at h2
            exact h2 rfl
          omega
    · rw [if_pos (le_of_eq hij), if_neg (by omega)]
      rw [add_zero]
      exact habs _ _
    · rw [if_neg (by omega), if_neg (by omega), add_zero]
      simp [abs_nonneg]
  · exact habs _ _

theorem foldTol_single_zero (g : Geometry) (i0 c0 : ℕ) (w tol : ℚ) (red : ℕ → ℕ → ℚ)
    (hred : ∀ i c, red i c = if i = i0 ∧ c = c0 then w else 0) (hw : |w| ≤ tol)
    (i c : ℕ) : foldTol g red tol i c = 0 := by
  unfold foldTol
  rw [if_pos (le_trans (foldD_single_abs_le g i0 c0 w red hred i c) hw)]

/-- Claim C5: every folded entry of magnitude at most `tol` is treated as
exactly zero, and a density matrix whose single stored entry has value
`tol/2` leaves the grid at its baseline values. -/
theorem density_tol_filter (g : Geometry) (gr : Grid) (i0 c0 : ℕ) (sp : SpinorArg)
    (tol : ℚ) (fp : FPState) (q : Z3) (htol : 0 ≤ tol) :
    (∀ red i c, |foldD g red i c| ≤ tol → foldTol g red tol i c = 0)
    ∧ (density ⟨g, .unpolarized, [(i0, c0, [tol / 2])]⟩ gr sp tol fp).grid.val q
        = gr.val q := by
  constructor
  · intro red i c h
    unfold foldTol
    rw [if_pos h]
  · apply density_val_unchanged
    intro v hv i c
    have hv' : v = VSpinor.unpol := by
      rw [validateSpinor_unpol] at hv
      cases hv
      rfl
    subst hv'
    refine foldTol_single_zero _ i0 c0 (tol / 2) tol _ ?_ ?_ i c
    · intro i c
      show Dval _ i c 0 = _
      rw [Dval_single]
      split
      · rfl
      · rfl
    · rw [abs_of_nonneg (by linarith)]
      linarith

theorem density_tol_filter_witness :
    0 ≤ (1 : ℚ)
    ∧ ((∀ red i c, |foldD geomT red i c| ≤ 1 → foldTol geomT red 1 i c = 0)
      ∧ (density ⟨geomT, .unpolarized, [(0, 0, [1 / 2])]⟩ gridT .defaulted 1 fpT).grid.val
          ⟨0, 0, 0⟩ = gridT.val ⟨0, 0, 0⟩) := by
  have h := density_tol_filter geomT gridT 0 0 .defaulted 1 fpT ⟨0, 0, 0⟩ (by norm_num)
  exact ⟨by norm_num, h⟩

/-- Claim C8 (amended): `density` emits the non-fatal coordinate warning iff
some fractional coordinate is strictly negative or strictly greater than 1 — a
coordinate exactly equal to 1, though outside `[0,1)`, does not trigger it —
and the call never fails on account of coordinates (its exception is
determined by spinor validation alone). -/
theorem density_coords_warning (dm : DensityMatrix) (gr : Grid) (sp : SpinorArg)
    (tol : ℚ) (fp : FPState) :
    (DWarn.coordsOutsidePrimary ∈ (density dm gr sp tol fp).warns
      ↔ ((∃ c ∈ dm.geometry.fxyzAll, c < 0) ∨ (∃ c ∈ dm.geometry.fxyzAll, 1 < c)))
    ∧ (density dm gr sp tol fp).err = spinorErr dm.spin sp := by
  have hco : (coordsOutside dm.geometry = true)
      ↔ ((∃ c ∈ dm.geometry.fxyzAll, c < 0) ∨ (∃ c ∈ dm.geometry.fxyzAll, 1 < c)) := by
    simp [coordsOutside, List.any_eq_true]
  cases hv : validateSpinor dm.spin sp with
  | error e =>
      rw [density_of_error dm gr sp tol fp e hv]
      constructor
      · rw [← hco]
        by_cases hc : coordsOutside dm.geometry = true
        · simp [hc]
        · simp [hc]
      · simp [spinorErr, hv]
  | ok v =>
      rw [density_of_ok dm gr sp tol fp v hv]
      constructor
      · rw [← hco]
        constructor
        · intro hmem
          rcases List.mem_append.mp hmem with h | h
          · by_cases hc : coordsOutside dm.geometry = true
            · exact hc
            · rw [if_neg hc] at h
              cases h
          · exfalso
            rw [List.mem_filterMap] at h
            obtain ⟨pa, _, heq⟩ := h
            split at heq
            · cases heq
            · cases heq
        · intro hc
          apply List.mem_append.mpr
          left
          rw [if_pos hc]
          exact List.mem_singleton.mpr rfl
      · simp [spinorErr, hv]

/-- Claim C8, counterexample to the claim as stated: in `geomC8` the atom's
fractional x-coordinate is exactly 1 — outside `[0,1)` — yet `density` emits
no warning at all (the check tests `fxyz.max() > 1` strictly). -/
theorem density_coords_warning_counter :
    ¬(0 ≤ (geomC8.fxyz 0).x ∧ (geomC8.fxyz 0).x < 1)
    ∧ (density dmC8 gridT .defaulted 0 fpT).warns = [] := by
  have hfx : geomC8.fxyz 0 = ⟨1, 0, 0⟩ := by
    show vmul (geomC8.xyzAt 0) (inv3 geomC8.sc.cell) = _
    have hxyz : geomC8.xyzAt 0 = ⟨10, 0, 0⟩ := rfl
    have hcell : geomC8.sc.cell = cellT := rfl
    rw [hxyz, hcell]
    simp only [inv3, det3, vmul, vadd, smul, cellT, V3.mk.injEq]
    norm_num
  have hall : geomC8.fxyzAll = [1, 0, 0] := by
    have hna : geomC8.na = 1 := rfl
    have hr1 : List.range 1 = [0] := rfl
    simp only [Geometry.fxyzAll, hna, hr1, List.flatMap_cons,
      List.flatMap_nil, List.append_nil, hfx]
  constructor
  · intro ⟨h1, h2⟩
    have hx : (geomC8.fxyz 0).x = 1 := by rw [hfx]
    rw [hx] at h2
    exact absurd h2 (by norm_num)
  · rw [density_of_ok dmC8 gridT .defaulted 0 fpT .unpol rfl]
    show (if coordsOutside dmC8.geometry then [DWarn.coordsOutsidePrimary] else [])
        ++ _ = []
    have hcd : coordsOutside dmC8.geometry = false := by
      have : dmC8.geometry = geomC8 := rfl
      rw [this, coordsOutside, hall]
      decide
    rw [hcd]
    show [] ++ _ = []
    rw [List.nil_append]
    rw [List.filterMap_eq_nil_iff]
    intro pa hpa
    have hlt : pa.1 < dmC8.geometry.na := mem_within_inf_lt hpa
    have h0 : pa.1 = 0 := by
      have hna : dmC8.geometry.na = 1 := rfl
      omega
    rw [h0]
    have hmr : (dmC8.geometry.atomAt 0).maxR = 1 := by
      show (atomT.maxR) = 1
      simp [Atom.maxR, atomT, orbT]
    rw [if_neg (by rw [hmr]; norm_num)]

/-- Claim C1, counterexample to the claim as stated: with tolerance `tol = 2`
and a single stored entry of value 1, `density` adds nothing (the folded entry
is dropped by the tolerance filter), but the claimed field
`ρ(r) = Σ φ_ν φ_μ D_{νμ}` is 1 at the grid point sitting on the atom. -/
theorem density_rho_counter :
    (density (dmT 1) gridT .defaulted 2 fpT).grid.val ⟨0, 0, 0⟩
      ≠ gridT.val ⟨0, 0, 0⟩ + rhoClaim (dmT 1) gridT ⟨0, 0, 0⟩ := by
  have h1 : (density (dmT 1) gridT .defaulted 2 fpT).grid.val ⟨0, 0, 0⟩
      = gridT.val ⟨0, 0, 0⟩ := by
    apply density_val_unchanged
    intro v hv i c
    have hv' : v = VSpinor.unpol := by
      have h2 : (Except.ok VSpinor.unpol : Except DMError VSpinor) = Except.ok v := hv
      cases h2
      rfl
    subst hv'
    refine foldTol_single_zero _ 0 0 1 2 _ ?_ ?_ i c
    · intro i c
      show Dval (dmT 1) i c 0 = _
      rw [show dmT 1 = ⟨geomT, .unpolarized, [(0, 0, [1])]⟩ from rfl, Dval_single]
      split <;> rfl
    · norm_num
  rw [h1]
  have h2 : rhoClaim (dmT 1) gridT ⟨0, 0, 0⟩ = 1 := by
    simp only [rhoClaim]
    norm_num [dmT, geomT, gridT, scT, atomT, orbT, cellT, Geometry.na, Geometry.n_s,
      Geometry.atomAt, Geometry.xyzAt, Geometry.a2o, Geometry.a2oSC, Geometry.axyz,
      Geometry.scOffAt, Geometry.no, Atom.no, Atom.orbAt, Dval, posOf, vmul, vadd, vsub,
      smul, ofZ3, iscShift, sq3, Finset.sum_range_one, List.getD]
  have h3 : gridT.val ⟨0, 0, 0⟩ = 0 := rfl
  rw [h2, h3]
  norm_num

/-! ### Fold symmetry (claim C2) -/

theorem Dval_eq_sum (dm : DensityMatrix) (i c t : ℕ) :
    Dval dm i c t = (dm.entries.map (fun e =>
      if e.1 = i ∧ e.2.1 = c then e.2.2.getD t 0 else 0)).sum := by
  unfold Dval
  induction dm.entries with
  | nil => rfl
  | cons e l ih =>
      by_cases h : (e.1 = i ∧ e.2.1 = c)
      · rw [List.filter_cons_of_pos (by simpa using h), List.map_cons, List.sum_cons,
          List.map_cons, List.sum_cons, if_pos h, ← ih]
      · rw [List.filter_cons_of_neg (by simpa using h), List.map_cons, List.sum_cons,
          if_neg h, zero_add, ← ih]

theorem Dval_pair (g : Geometry) (k : Spin) (i0 c0 i1 c1 : ℕ) (l0 l1 : List ℚ)
    (i c t : ℕ) :
    Dval ⟨g, k, [(i0, c0, l0), (i1, c1, l1)]⟩ i c t
      = (if i = i0 ∧ c = c0 then l0.getD t 0 else 0)
        + (if i = i1 ∧ c = c1 then l1.getD t 0 else 0) := by
  rw [Dval_eq_sum]
  simp only [List.map_cons, List.map_nil, List.sum_cons, List.sum_nil, add_zero]
  congr 1
  · rcases Decidable.em (i = i0 ∧ c = c0) with h | h
    · obtain ⟨rfl, rfl⟩ := h
      simp
    · rw [if_neg h, if_neg (fun hx => h ⟨hx.1.symm, hx.2.symm⟩)]
  · rcases Decidable.em (i = i1 ∧ c = c1) with h | h
    · obtain ⟨rfl, rfl⟩ := h
      simp
    · rw [if_neg h, if_neg (fun hx => h ⟨hx.1.symm, hx.2.symm⟩)]

theorem primary_col_div (g : Geometry) (jj : ℕ) (h : jj < g.no) :
    (g.primary * g.no + jj) / g.no = g.primary := by
  have h0 : 0 < g.no := by omega
  rw [mul_comm, Nat.mul_add_div h0, Nat.div_eq_of_lt h, add_zero]

theorem primary_col_mod (g : Geometry) (jj : ℕ) (h : jj < g.no) :
    (g.primary * g.no + jj) % g.no = jj := by
  rw [mul_comm, Nat.mul_add_mod, Nat.mod_eq_of_lt h]

/-- The fold sends the single-upper-entry matrix and its split-in-half
symmetrization to the same folded matrix. -/
theorem foldD_split_entry (g : Geometry) (i j : ℕ) (w : ℚ) (hij : i < j) (hj : j < g.no)
    (red1 red2 : ℕ → ℕ → ℚ)
    (h1 : ∀ a c, red1 a c = if a = i ∧ c = g.primary * g.no + j then w else 0)
    (h2 : ∀ a c, red2 a c
        = (if a = i ∧ c = g.primary * g.no + j then w / 2 else 0)
          + (if a = j ∧ c = g.primary * g.no + i then w / 2 else 0))
    (a c : ℕ) : foldD g red1 a c = foldD g red2 a c := by
  have h0 : 0 < g.no := by omega
  by_cases hs : c / g.no = g.primary
  · obtain ⟨jj, hjj, rfl⟩ : ∃ jj, jj < g.no ∧ c = g.primary * g.no + jj := by
      refine ⟨c % g.no, Nat.mod_lt _ h0, ?_⟩
      conv_lhs => rw [← Nat.div_add_mod c g.no]
      rw [hs, mul_comm]
    unfold foldD
    dsimp only
    rw [primary_col_div g jj hjj, primary_col_mod g jj hjj, if_pos rfl, if_pos rfl]
    rw [h1, h1, h2, h2]
    have e1 : (g.primary * g.no + jj = g.primary * g.no + j) ↔ jj = j := by omega
    have e2 : (g.primary * g.no + jj = g.primary * g.no + i) ↔ jj = i := by omega
    have e3 : (g.primary * g.no + a = g.primary * g.no + j) ↔ a = j := by omega
    have e4 : (g.primary * g.no + a = g.primary * g.no + i) ↔ a = i := by omega
    simp only [e1, e2, e3, e4]
    split_ifs <;> (first | (exfalso; omega) | ring)
  · unfold foldD
    dsimp only
    rw [if_neg hs, if_neg hs]
    have hc1 : ¬(c = g.primary * g.no + j) := by
      intro hcc
      exact hs (by rw [hcc]; exact primary_col_div g j hj)
    have hc2 : ¬(c = g.primary * g.no + i) := by
      intro hcc
      exact hs (by rw [hcc]; exact primary_col_div g i (by omega))
    rw [h1, h2, if_neg (fun hx => hc1 hx.2), if_neg (fun hx => hc1 hx.2),
      if_neg (fun hx => hc2 hx.2)]
    ring

/-- `density` is determined by the folded, tolerance-filtered matrix: two
matrices on the same geometry, with the same spin configuration, whose folded
filtered entries agree produce identical results. -/
theorem density_eq_of_red (dm1 dm2 : DensityMatrix) (gr : Grid) (sp : SpinorArg)
    (tol : ℚ) (fp : FPState) (hg : dm1.geometry = dm2.geometry)
    (hs : dm1.spin = dm2.spin)
    (hdt : ∀ v, validateSpinor dm2.spin sp = .ok v →
      foldTol dm1.geometry (fun i c => redFun dm1.spin v (fun t => Dval dm1 i c t)) tol
        = foldTol dm2.geometry (fun i c => redFun dm2.spin v (fun t => Dval dm2 i c t)) tol) :
    density dm1 gr sp tol fp = density dm2 gr sp tol fp := by
  cases hv : validateSpinor dm2.spin sp with
  | error e =>
      rw [density_of_error dm1 gr sp tol fp e (by rw [hs]; exact hv),
        density_of_error dm2 gr sp tol fp e hv, hg]
  | ok v =>
      rw [density_of_ok dm1 gr sp tol fp v (by rw [hs]; exact hv),
        density_of_ok dm2 gr sp tol fp v hv, hdt v hv, hg]

/-- Claim C2: for a primary-image matrix with a single upper-triangular entry
`D_{ij}` (`i < j`), `density` produces exactly what the Hermitian split
(`D_{ij}/2` in both triangular positions) produces; and the fold behind this
adds the strict-lower transpose of the primary image into the upper triangle
(keeping the diagonal), while keeping every other periodic image as-is. -/
theorem density_fold_symmetry (g : Geometry) (gr : Grid) (i j : ℕ) (w : ℚ)
    (sp : SpinorArg) (tol : ℚ) (fp : FPState) (hij : i < j) (hj : j < g.no) :
    (density ⟨g, .unpolarized, [(i, g.primary * g.no + j, [w])]⟩ gr sp tol fp
      = density ⟨g, .unpolarized,
          [(i, g.primary * g.no + j, [w / 2]), (j, g.primary * g.no + i, [w / 2])]⟩
          gr sp tol fp)
    ∧ (∀ red a c, c / g.no ≠ g.primary → foldD g red a c = red a c)
    ∧ (∀ red a b, a < b → b < g.no →
        foldD g red a (g.primary * g.no + b)
          = red a (g.primary * g.no + b) + red b (g.primary * g.no + a))
    ∧ (∀ red a, a < g.no →
        foldD g red a (g.primary * g.no + a) = red a (g.primary * g.no + a)) := by
  refine ⟨?_, ?_, ?_, ?_⟩
  · apply density_eq_of_red ⟨g, .unpolarized, [(i, g.primary * g.no + j, [w])]⟩
      ⟨g, .unpolarized,
        [(i, g.primary * g.no + j, [w / 2]), (j, g.primary * g.no + i, [w / 2])]⟩
      gr sp tol fp rfl rfl
    intro v hv
    have hv' : v = VSpinor.unpol := by
      rw [validateSpinor_unpol] at hv
      cases hv
      rfl
    subst hv'
    funext a c
    unfold foldTol
    have hfd : foldD g
        (fun a c => redFun Spin.unpolarized VSpinor.unpol
          (fun t => Dval ⟨g, .unpolarized, [(i, g.primary * g.no + j, [w])]⟩ a c t)) a c
        = foldD g
        (fun a c => redFun Spin.unpolarized VSpinor.unpol
          (fun t => Dval ⟨g, .unpolarized,
            [(i, g.primary * g.no + j, [w / 2]), (j, g.primary * g.no + i, [w / 2])]⟩
            a c t)) a c := by
      apply foldD_split_entry g i j w hij hj
      · intro a c
        show Dval _ a c 0 = _
        rw [Dval_single]
        split <;> rfl
      · intro a c
        show Dval _ a c 0 = _
        rw [Dval_pair]
        rfl
    rw [hfd]
  · intro red a c hns
    unfold foldD
    dsimp only
    rw [if_neg hns]
  · intro red a b hab hb
    unfold foldD
    dsimp only
    rw [primary_col_div g b hb, primary_col_mod g b hb, if_pos rfl,
      if_pos (le_of_lt hab), if_pos hab]
  · intro red a ha
    unfold foldD
    dsimp only
    rw [primary_col_div g a ha, primary_col_mod g a ha, if_pos rfl,
      if_pos (le_refl a), if_neg (lt_irrefl a), add_zero]

theorem density_fold_symmetry_witness :
    (0 : ℕ) < 1 ∧ 1 < geomT2.no
    ∧ density ⟨geomT2, .unpolarized, [(0, geomT2.primary * geomT2.no + 1, [1])]⟩
        gridT .defaulted 0 fpT
      = density ⟨geomT2, .unpolarized,
          [(0, geomT2.primary * geomT2.no + 1, [(1 : ℚ) / 2]),
           (1, geomT2.primary * geomT2.no + 0, [(1 : ℚ) / 2])]⟩ gridT .defaulted 0 fpT := by
  have h2 : 1 < geomT2.no := by decide
  exact ⟨Nat.zero_lt_one, h2,
    (density_fold_symmetry geomT2 gridT 0 1 1 .defaulted 0 fpT Nat.zero_lt_one h2).1⟩

/-! ### Geometry indexing facts (for claim C1) -/

theorem foldr_max_nonneg (l : List Orbital) : 0 ≤ l.foldr (fun o m => max o.R m) 0 := by
  induction l with
  | nil => exact le_refl 0
  | cons o t ih => exact le_trans ih (le_max_right _ _)

theorem le_foldr_max {l : List Orbital} {o : Orbital} (h : o ∈ l) :
    o.R ≤ l.foldr (fun o m => max o.R m) 0 := by
  induction l with
  | nil => cases h
  | cons b t ih =>
      rcases List.mem_cons.mp h with rfl | h
      · exact le_max_left _ _
      · exact le_trans (ih h) (le_max_right _ _)

theorem maxR_nonneg (a : Atom) : 0 ≤ a.maxR := foldr_max_nonneg a.orbitals

theorem le_maxR_of_mem {a : Atom} {o : Orbital} (h : o ∈ a.orbitals) : o.R ≤ a.maxR :=
  le_foldr_max h

theorem orbAt_mem {a : Atom} {j : ℕ} (h : j < a.no) : a.orbAt j ∈ a.orbitals := by
  unfold Atom.orbAt
  rw [List.getD_eq_getElem _ _ h]
  exact List.getElem_mem h

theorem atomAt_pair_mem (g : Geometry) {ia : ℕ} (h : ia < g.na) :
    (g.atomAt ia, g.xyzAt ia) ∈ g.atoms := by
  unfold Geometry.atomAt Geometry.xyzAt
  rw [List.getD_eq_getElem _ _ h, List.getD_eq_getElem _ _ h]
  exact List.getElem_mem h

/-- All facts `OrbOK` gives about one in-range orbital. -/
theorem orbOK_at (g : Geometry) (hOrb : OrbOK g) {ia jo : ℕ} (hia : ia < g.na)
    (hjo : jo < (g.atomAt ia).no) :
    0 < ((g.atomAt ia).orbAt jo).R
      ∧ ∀ v : V3, ((g.atomAt ia).orbAt jo).R ^ 2 < sq3 v
        → ((g.atomAt ia).orbAt jo).psi v = 0 :=
  hOrb _ (atomAt_pair_mem g hia) _ (orbAt_mem hjo)

theorem a2o_succ (g : Geometry) {ia : ℕ} (h : ia < g.na) :
    g.a2o (ia + 1) = g.a2o ia + (g.atomAt ia).no := by
  unfold Geometry.a2o Geometry.atomAt Atom.no
  rw [List.map_take, List.map_take,
    List.sum_take_succ _ ia (by rw [List.length_map]; exact h), List.getElem_map,
    List.getD_eq_getElem _ _ h]

theorem a2o_le_no (g : Geometry) (ia : ℕ) : g.a2o ia ≤ g.no := by
  unfold Geometry.a2o Geometry.no
  rw [List.map_take]
  conv_rhs => rw [← List.take_append_drop ia (g.atoms.map (fun p => p.1.orbitals.length))]
  rw [List.sum_append]
  exact Nat.le_add_right _ _

theorem a2o_add_lt (g : Geometry) {ia k : ℕ} (hia : ia < g.na)
    (hk : k < (g.atomAt ia).no) : g.a2o ia + k < g.no := by
  have h1 := a2o_succ g hia
  have h2 := a2o_le_no g (ia + 1)
  omega

theorem primary_lt_n_s (g : Geometry) (hP : (⟨0, 0, 0⟩ : Z3) ∈ g.sc.sc_off) :
    g.primary < g.n_s :=
  List.indexOf_lt_length.mpr hP

theorem scOffAt_primary (g : Geometry) (hP : (⟨0, 0, 0⟩ : Z3) ∈ g.sc.sc_off) :
    g.scOffAt g.primary = ⟨0, 0, 0⟩ := by
  unfold Geometry.scOffAt Geometry.primary
  rw [List.getD_eq_getElem _ _ (List.indexOf_lt_length.mpr hP)]
  exact List.getElem_indexOf (List.indexOf_lt_length.mpr hP)

theorem mul_add_div_lt {p b r : ℕ} (hr : r < b) : (p * b + r) / b = p := by
  have hb : 0 < b := by omega
  rw [mul_comm, Nat.mul_add_div hb, Nat.div_eq_of_lt hr, add_zero]

theorem mul_add_mod_lt {p b r : ℕ} (hr : r < b) : (p * b + r) % b = r := by
  rw [mul_comm, Nat.mul_add_mod, Nat.mod_eq_of_lt hr]

/-- The fold leaves the strict lower triangle of the primary-image block
exactly zero. -/
theorem foldTol_lower_zero (g : Geometry) (red : ℕ → ℕ → ℚ) (tol : ℚ) {aRow jcol : ℕ}
    (hj : jcol < g.no) (hlt : jcol < aRow) :
    foldTol g red tol aRow (g.primary * g.no + jcol) = 0 := by
  have hf : foldD g red aRow (g.primary * g.no + jcol) = 0 := by
    unfold foldD
    dsimp only
    rw [primary_col_div g jcol hj, primary_col_mod g jcol hj, if_pos rfl,
      if_neg (by omega), if_neg (by omega), add_zero]
  unfold foldTol
  rw [hf]
  simp

theorem vadd_zero3 (v : V3) : vadd v ⟨0, 0, 0⟩ = v := by
  obtain ⟨a, b, c⟩ := v
  simp [vadd]

theorem iscShift_zero (m : M3) : iscShift ⟨0, 0, 0⟩ m = ⟨0, 0, 0⟩ := by
  obtain ⟨⟨a1, a2, a3⟩, ⟨b1, b2, b3⟩, ⟨c1, c2, c3⟩⟩ := m
  simp only [iscShift, ofZ3, vmul, smul, vadd, V3.mk.injEq]
  norm_num

theorem abs_le_of_sq_le {x R : ℚ} (hR : 0 ≤ R) (h : x ^ 2 ≤ R ^ 2) : |x| ≤ R := by
  nlinarith [sq_abs x, abs_nonneg x]

theorem atom_no_zero (g : Geometry) (hOrb : OrbOK g) {ia : ℕ} (hia : ia < g.na)
    (hm : (g.atomAt ia).maxR ≤ 0) : (g.atomAt ia).no = 0 := by
  cases hl : (g.atomAt ia).orbitals with
  | nil => simp [Atom.no, hl]
  | cons o t =>
      exfalso
      have hmem : o ∈ (g.atomAt ia).orbitals := by
        rw [hl]
        exact List.mem_cons_self o t
      have h1 := (hOrb _ (atomAt_pair_mem g hia) _ hmem).1
      have h2 : o.R ≤ (g.atomAt ia).maxR := le_maxR_of_mem hmem
      linarith

/-! ### The per-atom pair sums (claim C1) -/

/-- The on-site block: summing one folded row over the whole primary diagonal
block equals the strict-upper gated sum plus the diagonal term — the lower
triangle is zero after folding, and the per-orbital radial gate only drops
points where the wavefunction vanishes anyway. -/
theorem onsite_block (g : Geometry) (red : ℕ → ℕ → ℚ) (tol : ℚ) (ia io : ℕ)
    (hOrb : OrbOK g) (hia : ia < g.na) (hio : io < (g.atomAt ia).no) (dvec : V3) :
    ∑ jo ∈ Finset.range (g.atomAt ia).no,
        foldTol g red tol (g.a2o ia + io) (g.primary * g.no + g.a2o ia + jo)
          * ((g.atomAt ia).orbAt jo).psi dvec
      = (∑ jo ∈ Finset.Ico (io + 1) (g.atomAt ia).no,
          (if (g.atomAt ia).maxR - ((g.atomAt ia).orbAt jo).R < epsR
              ∨ sq3 dvec ≤ ((g.atomAt ia).orbAt jo).R ^ 2 then
            foldTol g red tol (g.a2o ia + io) (g.primary * g.no + g.a2o ia + jo)
              * ((g.atomAt ia).orbAt jo).psi dvec
          else 0))
        + foldTol g red tol (g.a2o ia + io) (g.primary * g.no + g.a2o ia + io)
          * ((g.atomAt ia).orbAt io).psi dvec := by
  rw [Finset.range_eq_Ico,
    ← Finset.sum_Ico_consecutive _ (Nat.zero_le io) (le_of_lt hio),
    ← Finset.sum_Ico_consecutive _ (Nat.le_succ io) hio]
  have hlow : ∑ jo ∈ Finset.Ico 0 io,
      foldTol g red tol (g.a2o ia + io) (g.primary * g.no + g.a2o ia + jo)
        * ((g.atomAt ia).orbAt jo).psi dvec = 0 := by
    apply Finset.sum_eq_zero
    intro jo hjo
    have hjo' : jo < io := (Finset.mem_Ico.mp hjo).2
    have hzz : foldTol g red tol (g.a2o ia + io) (g.primary * g.no + g.a2o ia + jo)
        = 0 := by
      rw [add_assoc]
      exact foldTol_lower_zero g red tol (a2o_add_lt g hia (by omega)) (by omega)
    rw [hzz, zero_mul]
  have hsing : ∑ jo ∈ Finset.Ico io (io + 1),
      foldTol g red tol (g.a2o ia + io) (g.primary * g.no + g.a2o ia + jo)
        * ((g.atomAt ia).orbAt jo).psi dvec
      = foldTol g red tol (g.a2o ia + io) (g.primary * g.no + g.a2o ia + io)
        * ((g.atomAt ia).orbAt io).psi dvec := by
    rw [Nat.Ico_succ_singleton, Finset.sum_singleton]
  have hupper : ∑ jo ∈ Finset.Ico (io + 1) (g.atomAt ia).no,
      foldTol g red tol (g.a2o ia + io) (g.primary * g.no + g.a2o ia + jo)
        * ((g.atomAt ia).orbAt jo).psi dvec
      = ∑ jo ∈ Finset.Ico (io + 1) (g.atomAt ia).no,
          (if (g.atomAt ia).maxR - ((g.atomAt ia).orbAt jo).R < epsR
              ∨ sq3 dvec ≤ ((g.atomAt ia).orbAt jo).R ^ 2 then
            foldTol g red tol (g.a2o ia + io) (g.primary * g.no + g.a2o ia + jo)
              * ((g.atomAt ia).orbAt jo).psi dvec
          else 0) := by
    apply Finset.sum_congr rfl
    intro jo hjo
    have hjo' : jo < (g.atomAt ia).no := (Finset.mem_Ico.mp hjo).2
    by_cases hg : (g.atomAt ia).maxR - ((g.atomAt ia).orbAt jo).R < epsR
        ∨ sq3 dvec ≤ ((g.atomAt ia).orbAt jo).R ^ 2
    · rw [if_pos hg]
    · rw [if_neg hg]
      push_neg at hg
      have hpsi : ((g.atomAt ia).orbAt jo).psi dvec = 0 :=
        (orbOK_at g hOrb hia hjo').2 dvec (by linarith [hg.2])
      rw [hpsi, mul_zero]
  rw [hlow, hsing, hupper]
  ring

/-- The off-site block: the componentwise and radial gates of
`xyz2sphericalR` and the per-orbital downsizing drop only points where the
wavefunctions vanish, so the gated sum equals the plain folded-row sum. -/
theorem offsite_block (g : Geometry) (dt : ℕ → ℕ → ℚ) (row : ℕ) (ja : ℕ)
    (hOrb : OrbOK g) (hja : ja % g.na < g.na) (dJa : V3) :
    (let jaA := g.atomAt (ja % g.na)
     let jR := jaA.maxR
     if |dJa.x| ≤ jR ∧ |dJa.y| ≤ jR ∧ |dJa.z| ≤ jR ∧ sq3 dJa ≤ jR ^ 2 then
       ∑ jo ∈ Finset.range jaA.no,
         (if jR - (jaA.orbAt jo).R < epsR ∨ sq3 dJa ≤ (jaA.orbAt jo).R ^ 2 then
            dt row (g.a2oSC ja + jo) * (jaA.orbAt jo).psi dJa
          else 0)
     else 0)
      = ∑ jo ∈ Finset.range (g.atomAt (ja % g.na)).no,
          dt row (g.a2oSC ja + jo) * ((g.atomAt (ja % g.na)).orbAt jo).psi dJa := by
  dsimp only
  have hjR0 : 0 ≤ (g.atomAt (ja % g.na)).maxR := maxR_nonneg _
  by_cases hg : |dJa.x| ≤ (g.atomAt (ja % g.na)).maxR
      ∧ |dJa.y| ≤ (g.atomAt (ja % g.na)).maxR
      ∧ |dJa.z| ≤ (g.atomAt (ja % g.na)).maxR
      ∧ sq3 dJa ≤ (g.atomAt (ja % g.na)).maxR ^ 2
  · rw [if_pos hg]
    apply Finset.sum_congr rfl
    intro jo hjo
    have hjo' : jo < (g.atomAt (ja % g.na)).no := Finset.mem_range.mp hjo
    by_cases hg2 : (g.atomAt (ja % g.na)).maxR - ((g.atomAt (ja % g.na)).orbAt jo).R < epsR
        ∨ sq3 dJa ≤ ((g.atomAt (ja % g.na)).orbAt jo).R ^ 2
    · rw [if_pos hg2]
    · rw [if_neg hg2]
      push_neg at hg2
      have hpsi : ((g.atomAt (ja % g.na)).orbAt jo).psi dJa = 0 :=
        (orbOK_at g hOrb hja hjo').2 dJa (by linarith [hg2.2])
      rw [hpsi, mul_zero]
  · rw [if_neg hg]
    symm
    apply Finset.sum_eq_zero
    intro jo hjo
    have hjo' : jo < (g.atomAt (ja % g.na)).no := Finset.mem_range.mp hjo
    have hsq : (g.atomAt (ja % g.na)).maxR ^ 2 < sq3 dJa := by
      by_contra hcon
      push_neg at hcon
      apply hg
      refine ⟨?_, ?_, ?_, hcon⟩
      · apply abs_le_of_sq_le hjR0
        have h1 := sq_nonneg dJa.y
        have h2 := sq_nonneg dJa.z
        have : sq3 dJa = dJa.x ^ 2 + dJa.y ^ 2 + dJa.z ^ 2 := rfl
        linarith
      · apply abs_le_of_sq_le hjR0
        have h1 := sq_nonneg dJa.x
        have h2 := sq_nonneg dJa.z
        have : sq3 dJa = dJa.x ^ 2 + dJa.y ^ 2 + dJa.z ^ 2 := rfl
        linarith
      · apply abs_le_of_sq_le hjR0
        have h1 := sq_nonneg dJa.x
        have h2 := sq_nonneg dJa.y
        have : sq3 dJa = dJa.x ^ 2 + dJa.y ^ 2 + dJa.z ^ 2 := rfl
        linarith
    have hRp := (orbOK_at g hOrb hja hjo').1
    have hle : ((g.atomAt (ja % g.na)).orbAt jo).R ≤ (g.atomAt (ja % g.na)).maxR :=
      le_maxR_of_mem (orbAt_mem hjo')
    have hsq2 : ((g.atomAt (ja % g.na)).orbAt jo).R ^ 2
        ≤ (g.atomAt (ja % g.na)).maxR ^ 2 := by
      exact pow_le_pow_left₀ (le_of_lt hRp) hle 2
    have hpsi : ((g.atomAt (ja % g.na)).orbAt jo).psi dJa = 0 :=
      (orbOK_at g hOrb hja hjo').2 dJa (by linarith)
    rw [hpsi, mul_zero]

theorem sum_sigma_mul_middle (S : Finset ℕ) (T : ℕ → Finset ℕ) (a : ℚ)
    (f : ℕ → ℕ → ℚ) (h : ℕ → ℕ → ℚ) :
    ∑ x ∈ S, ∑ y ∈ T x, f x y * a * h x y = a * ∑ x ∈ S, ∑ y ∈ T x, f x y * h x y := by
  rw [Finset.mul_sum]
  apply Finset.sum_congr rfl
  intro x _
  rw [Finset.mul_sum]
  apply Finset.sum_congr rfl
  intro y _
  ring

theorem atomContrib_eq_rhoAtom (g : Geometry) (gr : Grid) (red : ℕ → ℕ → ℚ) (tol : ℚ)
    (ia : ℕ) (isc : Z3) (q : Z3) (hOrb : OrbOK g) (hia : ia < g.na)
    (hP : (⟨0, 0, 0⟩ : Z3) ∈ g.sc.sc_off) :
    atomContrib g gr (foldTol g red tol) ia isc q
      = rhoAtom g gr (foldTol g red tol) ia isc q := by
  have hna : 0 < g.na := by omega
  unfold atomContrib rhoAtom
  dsimp only
  rw [Nat.mul_comm g.no g.primary]
  apply Finset.sum_congr rfl
  intro io hio
  have hio' : io < (g.atomAt ia).no := Finset.mem_range.mp hio
  set dt := foldTol g red tol with hdtdef
  set p := posOf gr q with hpdef
  set cOff := vsub (iscShift isc g.sc.cell) gr.origo with hcoffdef
  rw [sum_sigma_mul_middle]
  congr 1
  set diag' := g.primary * g.na + ia with hdiag
  have hprlt : g.primary < g.n_s := primary_lt_n_s g hP
  have hdiagmem : diag' ∈ Finset.range (g.na * g.n_s) := by
    apply Finset.mem_range.mpr
    have h1 : (g.primary + 1) * g.na = g.primary * g.na + g.na := by ring
    have h2 : (g.primary + 1) * g.na ≤ g.n_s * g.na := Nat.mul_le_mul_right _ hprlt
    have h3 : g.n_s * g.na = g.na * g.n_s := Nat.mul_comm _ _
    omega
  have hmod : diag' % g.na = ia := mul_add_mod_lt hia
  have hdiv : diag' / g.na = g.primary := mul_add_div_lt hia
  have haxyz : vadd (g.axyz diag') cOff = vadd (g.xyzAt ia) cOff := by
    unfold Geometry.axyz
    rw [hmod, hdiv, scOffAt_primary g hP, iscShift_zero, vadd_zero3]
  have hcol : g.a2oSC diag' = g.primary * g.no + g.a2o ia := by
    unfold Geometry.a2oSC
    rw [hdiv, hmod]
  rw [← Finset.add_sum_erase _ _ hdiagmem]
  rw [hmod, hcol, haxyz]
  have hons := onsite_block g red tol ia io hOrb hia hio' (vsub p (vadd (g.xyzAt ia) cOff))
  rw [← hdtdef] at hons
  rw [hons]
  rw [← Finset.sum_filter_add_sum_filter_not ((Finset.range (g.na * g.n_s)).erase diag')
    (fun ja => ∃ io' ∈ Finset.range (g.atomAt ia).no,
      ∃ jo ∈ Finset.range (g.atomAt (ja % g.na)).no,
        dt (g.a2o ia + io') (g.a2oSC ja + jo) ≠ 0)]
  have hzero : ∑ ja ∈ ((Finset.range (g.na * g.n_s)).erase diag').filter
      (fun ja => ¬∃ io' ∈ Finset.range (g.atomAt ia).no,
        ∃ jo ∈ Finset.range (g.atomAt (ja % g.na)).no,
          dt (g.a2o ia + io') (g.a2oSC ja + jo) ≠ 0),
      ∑ jo ∈ Finset.range (g.atomAt (ja % g.na)).no,
        dt (g.a2o ia + io) (g.a2oSC ja + jo)
          * ((g.atomAt (ja % g.na)).orbAt jo).psi (vsub p (vadd (g.axyz ja) cOff)) = 0 := by
    apply Finset.sum_eq_zero
    intro ja hja
    have hnp := (Finset.mem_filter.mp hja).2
    push_neg at hnp
    apply Finset.sum_eq_zero
    intro jo hjo
    rw [hnp io hio jo hjo, zero_mul]
  rw [hzero, add_zero]
  have hsetEq : ((Finset.range (g.na * g.n_s)).erase diag').filter
      (fun ja => ∃ io' ∈ Finset.range (g.atomAt ia).no,
        ∃ jo ∈ Finset.range (g.atomAt (ja % g.na)).no,
          dt (g.a2o ia + io') (g.a2oSC ja + jo) ≠ 0) = connected g dt ia := by
    ext ja
    simp only [connected, Finset.mem_filter, Finset.mem_erase, hdiag]
    constructor
    · rintro ⟨⟨hne, hmem⟩, hex⟩
      exact ⟨hmem, hne, hex⟩
    · rintro ⟨hmem, hne, hex⟩
      exact ⟨⟨hne, hmem⟩, hex⟩
  rw [hsetEq]
  have hoffs : ∑ ja ∈ connected g dt ia,
      (let jaA := g.atomAt (ja % g.na)
       let jR := jaA.maxR
       let dJa := vsub p (vadd (g.axyz ja) cOff)
       if |dJa.x| ≤ jR ∧ |dJa.y| ≤ jR ∧ |dJa.z| ≤ jR ∧ sq3 dJa ≤ jR ^ 2 then
         ∑ jo ∈ Finset.range jaA.no,
           (if jR - (jaA.orbAt jo).R < epsR ∨ sq3 dJa ≤ (jaA.orbAt jo).R ^ 2 then
              dt (g.a2o ia + io) (g.a2oSC ja + jo) * (jaA.orbAt jo).psi dJa
            else 0)
       else 0)
      = ∑ ja ∈ connected g dt ia,
          ∑ jo ∈ Finset.range (g.atomAt (ja % g.na)).no,
            dt (g.a2o ia + io) (g.a2oSC ja + jo)
              * ((g.atomAt (ja % g.na)).orbAt jo).psi (vsub p (vadd (g.axyz ja) cOff)) := by
    apply Finset.sum_congr rfl
    intro ja hja
    have hjam : ja % g.na < g.na := Nat.mod_lt _ hna
    have hblk := offsite_block g dt (g.a2o ia + io) ja hOrb hjam
      (vsub p (vadd (g.axyz ja) cOff))
    exact hblk
  rw [← hoffs]
  dsimp only
  ring

/-- Completeness of the coverage enumeration: an in-range grid index within
the atom's bounding sphere is covered (the candidate hull is sound, the index
is a fixpoint of the clamp, and deduplication preserves membership). -/
theorem mem_coverage (g : Geometry) (gr : Grid) (ia : ℕ) (isc : Z3) (q : Z3)
    (hInv : mulMM gr.dcell (inv3 gr.dcell) = idM3)
    (hq : 0 ≤ q.x ∧ q.x < gr.shape.x ∧ 0 ≤ q.y ∧ q.y < gr.shape.y
      ∧ 0 ≤ q.z ∧ q.z < gr.shape.z)
    (hsq : sq3 (vsub (posOf gr q)
        (vadd (g.xyzAt ia) (vsub (iscShift isc g.sc.cell) gr.origo)))
      ≤ (g.atomAt ia).maxR ^ 2) :
    q ∈ coverage g gr ia isc := by
  set R := (g.atomAt ia).maxR with hRdef
  have hR : 0 ≤ R := maxR_nonneg _
  set c := vadd (g.xyzAt ia) (vsub (iscShift isc g.sc.cell) gr.origo) with hcdef
  set d := vsub (posOf gr q) c with hddef
  have hsq3 : sq3 d = d.x ^ 2 + d.y ^ 2 + d.z ^ 2 := rfl
  have hx2 : d.x ^ 2 ≤ R ^ 2 := by
    have h1 := sq_nonneg d.y
    have h2 := sq_nonneg d.z
    linarith [hsq]
  have hy2 : d.y ^ 2 ≤ R ^ 2 := by
    have h1 := sq_nonneg d.x
    have h2 := sq_nonneg d.z
    linarith [hsq]
  have hz2 : d.z ^ 2 ≤ R ^ 2 := by
    have h1 := sq_nonneg d.x
    have h2 := sq_nonneg d.y
    linarith [hsq]
  have hax := abs_le.mp (abs_le_of_sq_le hR hx2)
  have hay := abs_le.mp (abs_le_of_sq_le hR hy2)
  have haz := abs_le.mp (abs_le_of_sq_le hR hz2)
  have hdx : d.x = (posOf gr q).x - c.x := rfl
  have hdy : d.y = (posOf gr q).y - c.y := rfl
  have hdz : d.z = (posOf gr q).z - c.z := rfl
  have hb := @boxMul_bounds (vsub c ⟨R, R, R⟩) (vadd c ⟨R, R, R⟩)
    (posOf gr q) (inv3 gr.dcell)
    (by show c.x - R ≤ _; linarith [hax.1]) (by show _ ≤ c.x + R; linarith [hax.2])
    (by show c.y - R ≤ _; linarith [hay.1]) (by show _ ≤ c.y + R; linarith [hay.2])
    (by show c.z - R ≤ _; linarith [haz.1]) (by show _ ≤ c.z + R; linarith [haz.2])
  have hrec : vmul (posOf gr q) (inv3 gr.dcell) = ofZ3 q := by
    show vmul (vmul (ofZ3 q) gr.dcell) (inv3 gr.dcell) = ofZ3 q
    rw [vmul_mulMM, hInv, vmul_idM3]
  rw [hrec] at hb
  have hcand : q ∈ candIdx (vsub c ⟨R, R, R⟩) (vadd c ⟨R, R, R⟩) (inv3 gr.dcell) :=
    mem_candIdx hb.1.1 hb.1.2 hb.2.1.1 hb.2.1.2 hb.2.2.1 hb.2.2.2
  unfold coverage
  apply List.mem_dedup.mpr
  apply List.mem_map.mpr
  refine ⟨q, ?_, ?_⟩
  · unfold gridIndexSphere
    apply List.mem_filter.mpr
    exact ⟨hcand, decide_eq_true hsq⟩
  · obtain ⟨h1, h2, h3, h4, h5, h6⟩ := hq
    simp only [clampIdx, clampI]
    rw [if_neg (by omega), if_neg (by omega), if_neg (by omega), if_neg (by omega),
      if_neg (by omega), if_neg (by omega)]

/-- Claim C1 (amended): on a successful call, `density` leaves at every
in-range grid point the old value plus the sum, over every atom image
enumerated by `within_inf`, of the orbital-pair field of the folded,
tolerance-filtered matrix — purely additive, never resetting anything —
provided every orbital has a positive cutoff radius and vanishes beyond it,
the geometry's image list contains the zero offset, and the grid's voxel cell
is invertible. -/
theorem density_adds_rho (dm : DensityMatrix) (gr : Grid) (sp : SpinorArg) (tol : ℚ)
    (fp : FPState) (v : VSpinor) (q : Z3)
    (hv : validateSpinor dm.spin sp = .ok v)
    (hOrb : OrbOK dm.geometry)
    (hP : (⟨0, 0, 0⟩ : Z3) ∈ dm.geometry.sc.sc_off)
    (hInv : mulMM gr.dcell (inv3 gr.dcell) = idM3)
    (hq : 0 ≤ q.x ∧ q.x < gr.shape.x ∧ 0 ≤ q.y ∧ q.y < gr.shape.y
      ∧ 0 ≤ q.z ∧ q.z < gr.shape.z) :
    (density dm gr sp tol fp).grid.val q
      = gr.val q + ((within_inf dm.geometry (searchLo gr dm.geometry.maxR)
          (searchHi gr dm.geometry.maxR)).map (fun pa =>
            rhoAtom dm.geometry gr
              (foldTol dm.geometry
                (fun i c => redFun dm.spin v (fun t => Dval dm i c t)) tol)
              pa.1 pa.2 q)).sum := by
  rw [density_val_ok dm gr sp tol fp v hv q]
  congr 1
  apply congrArg List.sum
  apply List.map_congr_left
  intro pa hpa
  have hia : pa.1 < dm.geometry.na := mem_within_inf_lt hpa
  by_cases hskip : (dm.geometry.atomAt pa.1).maxR ≤ 0
  · rw [if_pos hskip]
    have hno : (dm.geometry.atomAt pa.1).no = 0 := atom_no_zero _ hOrb hia hskip
    unfold rhoAtom
    dsimp only
    rw [hno]
    simp
  · rw [if_neg hskip]
    by_cases hc : q ∈ coverage dm.geometry gr pa.1 pa.2
    · rw [if_pos hc]
      exact atomContrib_eq_rhoAtom dm.geometry gr
        (fun i c => redFun dm.spin v (fun t => Dval dm i c t)) tol pa.1 pa.2 q hOrb hia hP
    · rw [if_neg hc]
      have hfar : (dm.geometry.atomAt pa.1).maxR ^ 2
          < sq3 (vsub (posOf gr q)
            (vadd (dm.geometry.xyzAt pa.1)
              (vsub (iscShift pa.2 dm.geometry.sc.cell) gr.origo))) := by
        by_contra hcon
        push_neg at hcon
        exact hc (mem_coverage dm.geometry gr pa.1 pa.2 q hInv hq hcon)
      symm
      unfold rhoAtom
      dsimp only
      apply Finset.sum_eq_zero
      intro io hio
      apply Finset.sum_eq_zero
      intro ja _
      apply Finset.sum_eq_zero
      intro jo _
      have hio' : io < (dm.geometry.atomAt pa.1).no := Finset.mem_range.mp hio
      have hRp := (orbOK_at dm.geometry hOrb hia hio').1
      have hle : ((dm.geometry.atomAt pa.1).orbAt io).R ≤ (dm.geometry.atomAt pa.1).maxR :=
        le_maxR_of_mem (orbAt_mem hio')
      have hpsi : ((dm.geometry.atomAt pa.1).orbAt io).psi
          (vsub (posOf gr q)
            (vadd (dm.geometry.xyzAt pa.1)
              (vsub (iscShift pa.2 dm.geometry.sc.cell) gr.origo))) = 0 := by
        apply (orbOK_at dm.geometry hOrb hia hio').2
        have hsq2 : ((dm.geometry.atomAt pa.1).orbAt io).R ^ 2
            ≤ (dm.geometry.atomAt pa.1).maxR ^ 2 :=
          pow_le_pow_left₀ (le_of_lt hRp) hle 2
        linarith
      rw [hpsi, mul_zero, zero_mul]

theorem orbOK_geomT : OrbOK geomT := by
  intro pa hpa o ho
  have hpa' : pa = (atomT, ⟨0, 0, 0⟩) := List.mem_singleton.mp hpa
  subst hpa'
  have ho' : o = orbT := List.mem_singleton.mp ho
  subst ho'
  constructor
  · show (0 : ℚ) < 1
    norm_num
  · intro v hv
    show (if sq3 v ≤ 1 then (1 : ℚ) else 0) = 0
    rw [if_neg]
    intro hcon
    have h1 : orbT.R ^ 2 = 1 := by norm_num [orbT]
    rw [h1] at hv
    linarith

theorem density_adds_rho_witness :
    validateSpinor (dmT 1).spin .defaulted = Except.ok VSpinor.unpol
    ∧ OrbOK (dmT 1).geometry
    ∧ (⟨0, 0, 0⟩ : Z3) ∈ (dmT 1).geometry.sc.sc_off
    ∧ mulMM gridT.dcell (inv3 gridT.dcell) = idM3
    ∧ (0 ≤ (⟨0, 0, 0⟩ : Z3).x ∧ (⟨0, 0, 0⟩ : Z3).x < gridT.shape.x
        ∧ 0 ≤ (⟨0, 0, 0⟩ : Z3).y ∧ (⟨0, 0, 0⟩ : Z3).y < gridT.shape.y
        ∧ 0 ≤ (⟨0, 0, 0⟩ : Z3).z ∧ (⟨0, 0, 0⟩ : Z3).z < gridT.shape.z)
    ∧ (density (dmT 1) gridT .defaulted 0 fpT).grid.val ⟨0, 0, 0⟩
        = gridT.val ⟨0, 0, 0⟩
          + ((within_inf (dmT 1).geometry (searchLo gridT (dmT 1).geometry.maxR)
              (searchHi gridT (dmT 1).geometry.maxR)).map (fun pa =>
                rhoAtom (dmT 1).geometry gridT
                  (foldTol (dmT 1).geometry
                    (fun i c => redFun (dmT 1).spin VSpinor.unpol
                      (fun t => Dval (dmT 1) i c t)) 0)
                  pa.1 pa.2 ⟨0, 0, 0⟩)).sum := by
  have hv : validateSpinor (dmT 1).spin .defaulted = Except.ok VSpinor.unpol := rfl
  have hOrb : OrbOK (dmT 1).geometry := orbOK_geomT
  have hP : (⟨0, 0, 0⟩ : Z3) ∈ (dmT 1).geometry.sc.sc_off := by decide
  have hInv : mulMM gridT.dcell (inv3 gridT.dcell) = idM3 := by
    show mulMM cellT (inv3 cellT) = idM3
    simp only [mulMM, inv3, det3, vmul, vadd, smul, cellT, idM3, M3.mk.injEq, V3.mk.injEq]
    norm_num
  have hq : (0 ≤ (⟨0, 0, 0⟩ : Z3).x ∧ (⟨0, 0, 0⟩ : Z3).x < gridT.shape.x
      ∧ 0 ≤ (⟨0, 0, 0⟩ : Z3).y ∧ (⟨0, 0, 0⟩ : Z3).y < gridT.shape.y
      ∧ 0 ≤ (⟨0, 0, 0⟩ : Z3).z ∧ (⟨0, 0, 0⟩ : Z3).z < gridT.shape.z) := by decide
  exact ⟨hv, hOrb, hP, hInv, hq,
    density_adds_rho (dmT 1) gridT .defaulted 0 fpT VSpinor.unpol ⟨0, 0, 0⟩
      hv hOrb hP hInv hq⟩

end Sisl
